import Mathlib

/-!
Verification development for the fxBilibili service (a FastAPI application that
resolves Bilibili video identifiers to direct stream URLs and renders Open-Graph
embed documents).  The Python sources under app/ are shallowly embedded below:
pure helpers become Lean functions, coroutine pipelines become functions from
explicit upstream responses to results, exceptions become an Except monad over a
PyExc type, and the aiohttp-client-cache response cache becomes explicit state
passing.  Third-party behaviour the code relies on is embedded as well, each
time with a comment naming the library semantics being modelled: tenacity
retrying (utils.py decorator on fetch_video_url), aiohttp-client-cache response
caching (main.py app_lifespan), Python list indexing, Python keyword-argument
binding, the re module search for the extract_bvid pattern, and
urllib.parse.urlparse / urlunparse (CPython 3.11) for remove_query_params.
-/

/-- Python exception values that the embedded code can raise.  proxyError is
aiohttp_socks.ProxyError, timeoutError the built-in TimeoutError (asyncio
timeouts), connectionError an aiohttp client connection failure that is not a
proxy error (possible because main.py creates sessions without a proxy
connector when PROXY_URL is unset), clientResponseError what
resp.raise_for_status raises on a 4xx/5xx status, valueError / typeError /
indexError / keyError the built-ins, validationError a pydantic
ValidationError. -/
inductive PyExc where
  | proxyError
  | timeoutError
  | connectionError
  | clientResponseError (status : Nat)
  | valueError (msg : String)
  | typeError (msg : String)
  | indexError
  | keyError (key : String)
  | validationError (msg : String)
  deriving Repr, DecidableEq

/-- Python list subscription l[i] (utils.py line 104 uses episodes[episode - 1]):
a negative index counts from the end; an index out of range after that
adjustment raises IndexError. -/
def pyListGet (l : List α) (i : Int) : Except PyExc α :=
  let j : Int := if i < 0 then i + l.length else i
  if h : 0 ≤ j ∧ j < l.length then
    .ok (l.get ⟨j.toNat, by omega⟩)
  else
    .error .indexError

/-- Embedding of utils.fetch_episode_bvid (utils.py lines 94-105) after the
episode-list response has been received and unpacked: the episode list is the
list of bvid tokens of data.result.episodes, and the function evaluates
episodes[episode - 1] and returns its bvid field. -/
def fetch_episode_bvid (episodes : List String) (episode : Int) : Except PyExc String :=
  pyListGet episodes (episode - 1)

/-- Result of one upstream HTTP GET as seen by the client code: either the
transport layer failed with an exception, or a response arrived carrying an
HTTP status and a JSON body with a top-level code and a url field (the shape
of the api.injahow.cn bparse endpoint). -/
inductive UpstreamResult where
  | transport (e : PyExc)
  | response (status : Nat) (code : Int) (url : String)
  deriving Repr, DecidableEq

/-- The retry predicate of the tenacity decorator on fetch_video_url
(utils.py lines 108-113): retry_if_exception_type((ProxyError, TimeoutError)).
Exactly ProxyError and TimeoutError are retried; every other exception,
including plain aiohttp connection errors, ValueError and HTTP status errors,
is not. -/
def shouldRetry : PyExc → Bool
  | .proxyError => true
  | .timeoutError => true
  | _ => false

/-- The transient-transport-error class as the specification describes it:
connection or proxy errors and timeouts.  This definition follows the claim
text, not the code, and exists to be compared with shouldRetry. -/
def isTransientSpec : PyExc → Bool
  | .proxyError => true
  | .timeoutError => true
  | .connectionError => true
  | _ => false

/-- One attempt of the body of utils.fetch_video_url (utils.py lines 114-129):
session.get, resp.raise_for_status() (raises for a status of 400 and above),
then the JSON body; a top-level code different from 0 raises
ValueError("Failed to retrieve video URL"), otherwise data["url"] is
returned. -/
def bparseAttempt : UpstreamResult → Except PyExc String
  | .transport e => .error e
  | .response status code url =>
    if 400 ≤ status then .error (.clientResponseError status)
    else if code ≠ 0 then .error (.valueError "Failed to retrieve video URL")
    else .ok url

/-- The tenacity retry loop with stop_after_attempt and reraise=True
(utils.py lines 108-113): f is run for attempt number a; on success the value
is returned, on an exception matching shouldRetry the loop retries while
attempts remain, and otherwise (non-matching exception, or the attempt budget
is exhausted) the last exception is re-raised.  The second component of the
result counts the attempts actually made.  The fuel argument rem is the number
of further attempts permitted after the current one. -/
def tenacityGo (f : Nat → Except PyExc α) (a : Nat) : Nat → Except PyExc α × Nat
  | 0 => (f a, a + 1)
  | rem + 1 =>
    match f a with
    | .ok v => (.ok v, a + 1)
    | .error e => if shouldRetry e then tenacityGo f (a + 1) rem else (.error e, a + 1)

/-- Embedding of utils.fetch_video_url (utils.py lines 108-129) as decorated:
up to 3 total attempts (stop_after_attempt(3)), the i-th attempt observing
upstream i.  Returns the final outcome and the number of attempts made. -/
def fetch_video_url (upstream : Nat → UpstreamResult) : Except PyExc String × Nat :=
  tenacityGo (fun i => bparseAttempt (upstream i)) 0 2

/-- Cache key of aiohttp-client-cache: the request URL together with the query
parameters sent (fetch_video_url passes request.model_dump(exclude_unset=True)
as params). -/
abbrev CacheKey := String × List (String × String)

/-- An HTTP response as stored by the response cache. -/
structure HTTPResponse where
  status : Nat
  code : Int
  url : String
  deriving Repr, DecidableEq

/-- State of the shared response cache created in main.app_lifespan
(main.py lines 30-45): a SQLiteBackend-backed CachedSession, embedded as an
association list from cache keys to stored responses (the one-hour expiry
window is not modelled; the claims below concern immediately repeated
requests, well inside any expiry window). -/
structure CacheState where
  entries : List (CacheKey × HTTPResponse)
  deriving Repr, DecidableEq

/-- Cache read. -/
def cacheLookup (c : CacheState) (k : CacheKey) : Option HTTPResponse :=
  (c.entries.find? (fun e => e.1 = k)).map Prod.snd

/-- Cache write. -/
def cacheInsert (c : CacheState) (k : CacheKey) (r : HTTPResponse) : CacheState :=
  ⟨(k, r) :: c.entries⟩

deriving instance DecidableEq for Except

/-- Outcome of one resolution through the cached session: the result, the
cache state afterwards, and whether the upstream service was actually
called. -/
structure CachedFetchResult where
  result : Except PyExc String
  cache : CacheState
  upstreamCalled : Bool
  deriving Repr, DecidableEq

/-- One pass of utils.fetch_video_url running over the CachedSession of
main.app_lifespan.  aiohttp-client-cache semantics: a request whose key is
cached is answered from the cache without an upstream call; on a miss the
upstream is called, and the response is stored if and only if its HTTP status
is in the backend's allowed_codes, which main.py leaves at the default (200,).
A transport failure produces no response and stores nothing.  The body of the
response is not consulted by the cache.  After the session.get, the code of
fetch_video_url runs raise_for_status and the code != 0 check exactly as in
bparseAttempt.  (The tenacity decorator wraps this pass; retried transport
failures never modify the cache, so the single pass determines the cache
effect of a resolution.) -/
def fetchVideoURLCachedOnce (cache : CacheState) (key : CacheKey) (upstream : UpstreamResult) :
    CachedFetchResult :=
  match cacheLookup cache key with
  | some r =>
    { result :=
        if 400 ≤ r.status then .error (.clientResponseError r.status)
        else if r.code ≠ 0 then .error (.valueError "Failed to retrieve video URL")
        else .ok r.url
      cache := cache
      upstreamCalled := false }
  | none =>
    match upstream with
    | .transport e => { result := .error e, cache := cache, upstreamCalled := true }
    | .response status code url =>
      { result :=
          if 400 ≤ status then .error (.clientResponseError status)
          else if code ≠ 0 then .error (.valueError "Failed to retrieve video URL")
          else .ok url
        cache := if status = 200 then cacheInsert cache key ⟨status, code, url⟩ else cache
        upstreamCalled := true }

/-- Upstream response for the stream relay: HTTP success flag (resp.ok, true
for a status below 400) and the sequence of body chunks that
resp.content.iter_chunked would produce. -/
structure StreamResponse where
  ok : Bool
  chunks : List (List Nat)
  deriving Repr, DecidableEq

/-- Observable run of an async generator: the chunks it yielded, in order, and
whether it signalled failure by raising instead of terminating normally. -/
structure GeneratorRun where
  yielded : List (List Nat)
  raised : Bool
  deriving Repr, DecidableEq

/-- Embedding of utils.video_stream_generator (utils.py lines 172-193): when
resp.ok is false it logs, yields the single chunk b"" and returns; otherwise
it yields each chunk in order, breaking at the first falsy (empty) chunk.
No path raises. -/
def video_stream_generator (resp : StreamResponse) : GeneratorRun :=
  if resp.ok = false then { yielded := [[]], raised := false }
  else { yielded := resp.chunks.takeWhile (fun c => ! c.isEmpty), raised := false }

/-- app.schema.VideoOwner. -/
structure VideoOwner where
  name : String
  deriving Repr, DecidableEq

/-- app.schema.VideoStatistics. -/
structure VideoStatistics where
  views : Int
  coins : Int
  shares : Int
  likes : Int
  favorites : Int
  deriving Repr, DecidableEq

/-- app.schema.VideoDimension. -/
structure VideoDimension where
  width : Int
  height : Int
  deriving Repr, DecidableEq

/-- app.schema.VideoPage. -/
structure VideoPage where
  first_frame : Option String
  deriving Repr, DecidableEq

/-- app.schema.VideoData, the decoded metadata entity. -/
structure VideoData where
  title : String
  description : String
  owner : VideoOwner
  stats : VideoStatistics
  dimension : VideoDimension
  thumbnail : String
  pages : List VideoPage
  deriving Repr, DecidableEq

/-- JSON payload under the data key of the view endpoint, with every field
optional so that absence can be expressed (a none field is an absent key). -/
structure OwnerPayload where
  name : Option String
  deriving Repr, DecidableEq

/-- JSON stat object of the view endpoint. -/
structure StatPayload where
  view : Option Int
  coin : Option Int
  share : Option Int
  like : Option Int
  favorite : Option Int
  deriving Repr, DecidableEq

/-- JSON dimension object of the view endpoint. -/
structure DimensionPayload where
  width : Option Int
  height : Option Int
  deriving Repr, DecidableEq

/-- JSON page object of the view endpoint. -/
structure PagePayload where
  first_frame : Option String
  deriving Repr, DecidableEq

/-- JSON video object of the view endpoint. -/
structure VideoPayload where
  title : Option String
  desc : Option String
  owner : Option OwnerPayload
  stat : Option StatPayload
  dimension : Option DimensionPayload
  pic : Option String
  pages : Option (List PagePayload)
  deriving Repr, DecidableEq

/-- Pydantic validation VideoData(**payload) per app/schema.py: title, desc,
owner, stat, dimension and pic are required fields (alias names desc, stat and
pic per the Field declarations); a missing one fails validation.  Inside the
submodels, owner.name defaults to "???", each counter defaults to 0,
dimension defaults to 1920 by 1080, page.first_frame defaults to None, and
pages itself has default_factory=list. -/
def decodeVideoData (p : VideoPayload) : Except String VideoData :=
  match p.title, p.desc, p.owner, p.stat, p.dimension, p.pic with
  | some title, some desc, some ow, some st, some dim, some pic =>
    .ok { title := title
          description := desc
          owner := ⟨ow.name.getD "???"⟩
          stats := ⟨st.view.getD 0, st.coin.getD 0, st.share.getD 0, st.like.getD 0,
                    st.favorite.getD 0⟩
          dimension := ⟨dim.width.getD 1920, dim.height.getD 1080⟩
          thumbnail := pic
          pages := (p.pages.getD []).map (fun pg => ⟨pg.first_frame⟩) }
  | _, _, _, _, _, _ => .error "field required"

/-- JSON body of the view endpoint: top-level code, optional message, optional
data object. -/
structure ViewBody where
  code : Int
  message : Option String
  data : Option VideoPayload
  deriving Repr, DecidableEq

/-- Embedding of utils.fetch_video_info (utils.py lines 77-91):
resp.raise_for_status() raises for a status of 400 and above; then a top-level
code different from 0 raises ValueError(view_data.get("message", "Invalid
Bilibili video ID")); otherwise view_data["data"] (KeyError if absent) is
validated into VideoData. -/
def fetch_video_info (status : Nat) (body : ViewBody) : Except PyExc VideoData :=
  if 400 ≤ status then .error (.clientResponseError status)
  else if body.code ≠ 0 then .error (.valueError (body.message.getD "Invalid Bilibili video ID"))
  else
    match body.data with
    | none => .error (.keyError "data")
    | some d =>
      match decodeVideoData d with
      | .ok v => .ok v
      | .error m => .error (.validationError m)

/-- Python format spec with a thousands separator, as in an f-string with a
comma format: groups of three decimal digits from the right, joined by commas.
Input is the digit list reversed (least significant first). -/
def commaGroupRev : List Char → List Char
  | [] => []
  | [a] => [a]
  | [a, b] => [a, b]
  | [a, b, c] => [a, b, c]
  | a :: b :: c :: rest => a :: b :: c :: ',' :: commaGroupRev rest

/-- Python str formatting of an integer with the comma thousands separator. -/
def pyCommaFormat (n : Int) : String :=
  let grouped := (commaGroupRev (Nat.toDigits 10 n.natAbs).reverse).reverse
  if n < 0 then "-" ++ String.mk grouped else String.mk grouped

/-- Image selection of utils.get_embed_html (utils.py lines 132-134):
pages[0].first_frame when pages is non-empty, else the thumbnail; a falsy
result (None or the empty string) falls back to the thumbnail via the or
expression. -/
def embedImage (v : VideoData) : String :=
  let image0 : Option String :=
    match v.pages with
    | [] => some v.thumbnail
    | pg :: _ => pg.first_frame
  match image0 with
  | some s => if s = "" then v.thumbnail else s
  | none => v.thumbnail

/-- Embedding of utils.get_embed_html (utils.py lines 132-166): the f-string
document, line by line, with the same interpolations (leading indentation of
the Python source is removed by textwrap.dedent and is not reproduced). -/
def get_embed_html (video : VideoData) (current_url : String) (video_url : String) : String :=
  let image := embedImage video
  let site_name := "👁️ " ++ pyCommaFormat video.stats.views ++ " 👍 " ++
    pyCommaFormat video.stats.likes ++ " 🪙 " ++ pyCommaFormat video.stats.coins ++
    " ⭐ " ++ pyCommaFormat video.stats.favorites
  "\n<!DOCTYPE html>\n<html lang=\"en\">\n<head>\n<meta charset=\"utf-8\">\n" ++
  "<meta name=\"theme-color\" content=\"#0fa6d8\">\n" ++
  "<meta property=\"og:title\" content=\"" ++ video.owner.name ++ " - " ++ video.title ++ "\">\n" ++
  "<meta property=\"og:type\" content=\"video\">\n" ++
  "<meta property=\"og:site_name\" content=\"" ++ site_name ++ "\">\n" ++
  "<meta property=\"og:url\" content=\"" ++ current_url ++ "\">\n" ++
  "<meta property=\"og:video\" content=\"" ++ video_url ++ "\">\n" ++
  "<meta property=\"og:video:secure_url\" content=\"" ++ video_url ++ "\">\n" ++
  "<meta property=\"og:video:type\" content=\"video/mp4\">\n" ++
  "<meta property=\"og:video:width\" content=" ++ toString video.dimension.width ++ ">\n" ++
  "<meta property=\"og:video:height\" content=" ++ toString video.dimension.height ++ ">\n" ++
  "<meta property=\"og:image\" content=\"" ++ image ++ "\">\n" ++
  "<meta name=\"twitter:card\" content=\"player\">\n" ++
  "<meta name=\"twitter:title\" content=\"" ++ video.title ++ "\">\n" ++
  "<meta name=\"twitter:description\" content=\"" ++ video.description ++ "\">\n" ++
  "<meta name=\"twitter:image\" content=\"" ++ image ++ "\">\n" ++
  "<meta name=\"twitter:player\" content=\"" ++ current_url ++ "\">\n" ++
  "<meta name=\"twitter:player:width\" content=" ++ toString video.dimension.width ++ ">\n" ++
  "<meta name=\"twitter:player:height\" content=" ++ toString video.dimension.height ++ ">\n" ++
  "<title>" ++ video.title ++ "</title>\n</head>\n</html>\n"

/-- Parameter list of utils.fetch_video_url as defined (utils.py line 114):
def fetch_video_url(session, request). -/
def fetchVideoURLParams : List String := ["session", "request"]

/-- Python keyword-argument binding for a call f(pos1, ..., posN, kw1=..., ...)
against a def with the given positional parameter names (none of which have
defaults): a keyword naming no parameter raises TypeError (unexpected keyword
argument); a keyword naming a positionally-filled parameter raises TypeError
(multiple values); a parameter bound neither positionally nor by keyword
raises TypeError (missing argument). -/
def pythonBindKwargs (params : List String) (npos : Nat) (kwargs : List String) :
    Except PyExc Unit :=
  if kwargs.any (fun k => ! params.contains k) then
    .error (.typeError "got an unexpected keyword argument")
  else if kwargs.any (fun k => (params.take npos).contains k) then
    .error (.typeError "got multiple values for argument")
  else if (params.drop npos).any (fun q => ! kwargs.contains q) then
    .error (.typeError "missing a required positional argument")
  else .ok ()

/-- Embedding of main.bilibili_embed (main.py lines 96-104) for a given bvid:
fetch_video_info runs on the metadata response; then the handler evaluates the
call fetch_video_url(proxy_session, bvid=bvid) (main.py line 101) - the
keyword binding against the parameters of utils.fetch_video_url (session,
request) is modelled by pythonBindKwargs with one positional argument and the
keyword bvid; only if that binding succeeded would the retried fetch run and
get_embed_html render the document.  main.download_bilibili_video
(main.py line 77) performs the identical call. -/
def bilibili_embed (metaStatus : Nat) (metaBody : ViewBody) (urlUpstream : Nat → UpstreamResult)
    (currentURL : String) : Except PyExc String :=
  match fetch_video_info metaStatus metaBody with
  | .error e => .error e
  | .ok video =>
    match pythonBindKwargs fetchVideoURLParams 1 ["bvid"] with
    | .error e => .error e
    | .ok _ =>
      match (fetch_video_url urlUpstream).1 with
      | .error e => .error e
      | .ok url => .ok (get_embed_html video currentURL url)

/-- Word character of the re module pattern fragment w inside the bracket
expression of extract_bvid, restricted to the ASCII range the claims exercise:
letters, digits and the underscore. -/
def isWordChar (c : Char) : Bool := c.isAlphanum || c = '_'

/-- Literal matcher: consumes the given literal characters from the front. -/
def stripLit : List Char → List Char → Option (List Char)
  | [], s => some s
  | _ :: _, [] => none
  | l :: ls, c :: cs => if c = l then stripLit ls cs else none

/-- The unescaped regex dot: consumes one character that is not a newline. -/
def dotChar : List Char → Option (List Char)
  | [] => none
  | c :: cs => if c = '\n' then none else some cs

/-- Common tail of the extract_bvid pattern after the optional subdomain
group: the literal bilibili, an unescaped dot, the literal com/video/, then
the greedy capture of one or more word characters. -/
def matchTail (s : List Char) : Option (List Char) :=
  match stripLit ['b', 'i', 'l', 'i', 'b', 'i', 'l', 'i'] s with
  | none => none
  | some s1 =>
    match dotChar s1 with
    | none => none
    | some s2 =>
      match stripLit ['c', 'o', 'm', '/', 'v', 'i', 'd', 'e', 'o', '/'] s2 with
      | none => none
      | some s3 =>
        let tok := s3.takeWhile isWordChar
        if tok.isEmpty then none else some tok

/-- Match of the full extract_bvid pattern anchored at the start of s
(utils.py line 65): the literal https://, then the optional group trying the
alternative www followed by an unescaped dot, then m followed by an unescaped
dot, then the empty alternative, in the order the regex engine tries them,
backtracking into the next alternative when the tail fails. -/
def matchAt (s : List Char) : Option (List Char) :=
  match stripLit ['h', 't', 't', 'p', 's', ':', '/', '/'] s with
  | none => none
  | some s0 =>
    (stripLit ['w', 'w', 'w'] s0 >>= dotChar >>= matchTail) <|>
    (stripLit ['m'] s0 >>= dotChar >>= matchTail) <|>
    matchTail s0

/-- re.search over the pattern of extract_bvid: the match anchored at the
leftmost position where one exists. -/
def reSearchBVID : List Char → Option (List Char)
  | [] => none
  | c :: cs =>
    match matchAt (c :: cs) with
    | some t => some t
    | none => reSearchBVID cs

/-- Embedding of utils.extract_bvid (utils.py lines 64-66): re.search of the
watch-page pattern, returning the captured group. -/
def extract_bvid (url : String) : Option String :=
  (reSearchBVID url.toList).map String.mk

/-- Watch-page pattern as the specification words it, with the dots taken
literally: the host is www.bilibili.com, m.bilibili.com or bilibili.com and
the path is /video/ followed by at least one word character.  This definition
follows the claim text, not the code, and exists to be compared with
extract_bvid. -/
def specMatchAt (s : List Char) : Bool :=
  ["https://www.bilibili.com/video/", "https://m.bilibili.com/video/",
   "https://bilibili.com/video/"].any (fun p =>
    match stripLit p.toList s with
    | none => false
    | some rest => ! (rest.takeWhile isWordChar).isEmpty)

/-- Occurrence of the literal-dot watch-page pattern anywhere in the input. -/
def specPatternOccurs : List Char → Bool
  | [] => false
  | c :: cs => specMatchAt (c :: cs) || specPatternOccurs cs

/-- Occurrence of the liberal pattern the code actually matches: some position
carries https://, an optional subdomain group of www or m followed by one
arbitrary non-newline character, the literal bilibili, one arbitrary
non-newline character, the literal com/video/, and then the non-empty token of
word characters that is captured. -/
def liberalOccurrence (s tok : List Char) : Prop :=
  ∃ pre sub d rest,
    s = pre ++ ['h', 't', 't', 'p', 's', ':', '/', '/'] ++ sub ++
        ['b', 'i', 'l', 'i', 'b', 'i', 'l', 'i'] ++ [d] ++
        ['c', 'o', 'm', '/', 'v', 'i', 'd', 'e', 'o', '/'] ++ tok ++ rest ∧
    d ≠ '\n' ∧
    (sub = [] ∨ ∃ d2, d2 ≠ '\n' ∧ (sub = ['w', 'w', 'w', d2] ∨ sub = ['m', d2])) ∧
    tok ≠ [] ∧ ∀ c ∈ tok, isWordChar c

/-- Parsed URL components in the order urlparse returns them. -/
structure URLComponents where
  scheme : List Char
  netloc : List Char
  path : List Char
  params : List Char
  query : List Char
  fragment : List Char
  deriving Repr, DecidableEq

/-- C0 control characters and the space, stripped from the front of a URL by
urlsplit (CPython 3.11, WHATWG rule; only the left side is stripped). -/
def isC0OrSpace (c : Char) : Bool := c.toNat ≤ 32

/-- Tab, carriage return and line feed, removed everywhere in a URL by
urlsplit (CPython 3.11, WHATWG rule). -/
def isUnsafeURLByte (c : Char) : Bool := c = '\t' || c = '\r' || c = '\n'

/-- The cleanup urlsplit applies before parsing: left-strip C0 controls and
spaces, then delete every tab, carriage return and line feed. -/
def cleanURL (s : List Char) : List Char :=
  (s.dropWhile isC0OrSpace).filter (fun c => ! isUnsafeURLByte c)

/-- Split at the first occurrence of a delimiter: returns the part before it
(which does not contain the delimiter) and the part after it. -/
def splitFirst (d : Char) : List Char → Option (List Char × List Char)
  | [] => none
  | c :: cs =>
    if c = d then some ([], cs)
    else
      match splitFirst d cs with
      | none => none
      | some (a, b) => some (c :: a, b)

/-- Split at the last occurrence of a delimiter: the part after it contains no
further occurrence. -/
def splitLast (d : Char) (u : List Char) : Option (List Char × List Char) :=
  match splitFirst d u.reverse with
  | none => none
  | some (a, b) => some (b.reverse, a.reverse)

/-- Characters permitted in a scheme (scheme_chars of urllib.parse): ASCII
letters, digits, plus, minus and dot. -/
def isSchemeChar (c : Char) : Bool := c.isAlpha || c.isDigit || c = '+' || c = '-' || c = '.'

/-- ASCII lowercase, which coincides with Python str.lower on the validated
ASCII scheme text it is applied to. -/
def asciiLower (c : Char) : Char := if c.isUpper then Char.ofNat (c.toNat + 32) else c

/-- Validity check urlsplit applies to the text before the first colon: it
must be non-empty, start with an ASCII letter and consist of scheme
characters only. -/
def schemeCheckOK (a : List Char) : Bool :=
  match a with
  | [] => false
  | c :: _ => c.isAlpha && a.all isSchemeChar

/-- Scheme extraction of urlsplit: the text before the first colon is taken as
the scheme, lowercased, when it passes schemeCheckOK; otherwise no scheme is
split off. -/
def splitScheme (u : List Char) : List Char × List Char :=
  match splitFirst ':' u with
  | none => ([], u)
  | some (pre, post) =>
    if schemeCheckOK pre then (pre.map asciiLower, post) else ([], u)

/-- Delimiters ending the netloc ( _splitnetloc of urllib.parse looks for the
earliest of slash, question mark and hash). -/
def netlocDelim (c : Char) : Bool := c = '/' || c = '?' || c = '#'

/-- Netloc extraction of urlsplit: only when the remaining URL starts with two
slashes; the netloc runs to the earliest delimiter.  A netloc containing one
bracket without its partner raises ValueError (Invalid IPv6 URL), modelled as
the error case.  The further host-validity checks of CPython
(_check_bracketed_host, _checknetloc) reject additional exotic hosts and are
not modelled; they never accept a URL this model rejects. -/
def splitNetloc (u : List Char) : Except Unit (List Char × List Char) :=
  match u with
  | '/' :: '/' :: rest =>
    let nl := rest.takeWhile (fun c => ! netlocDelim c)
    let r := rest.dropWhile (fun c => ! netlocDelim c)
    if (nl.contains '[' && ! nl.contains ']') || (nl.contains ']' && ! nl.contains '[') then
      .error ()
    else .ok (nl, r)
  | _ => .ok ([], u)

/-- Fragment split of urlsplit: at the first hash, when one occurs. -/
def splitFragment (u : List Char) : List Char × List Char :=
  match splitFirst '#' u with
  | none => (u, [])
  | some (a, b) => (a, b)

/-- Query split of urlsplit: at the first question mark of the pre-fragment
text, when one occurs. -/
def splitQuery (u : List Char) : List Char × List Char :=
  match splitFirst '?' u with
  | none => (u, [])
  | some (a, b) => (a, b)

/-- Result record of urlsplit. -/
structure SplitURL where
  scheme : List Char
  netloc : List Char
  path : List Char
  query : List Char
  fragment : List Char
  deriving Repr, DecidableEq

/-- Embedding of urllib.parse.urlsplit (CPython 3.11): cleanup, scheme split,
netloc split with the bracket check, fragment split, query split. -/
def pyUrlsplit (url0 : List Char) : Except Unit SplitURL :=
  let u := cleanURL url0
  let sp := splitScheme u
  match splitNetloc sp.2 with
  | .error e => .error e
  | .ok (netloc, u2) =>
    let fr := splitFragment u2
    let qu := splitQuery fr.1
    .ok ⟨sp.1, netloc, qu.1, qu.2, fr.2⟩

/-- Schemes for which urlparse separates path parameters (uses_params of
urllib.parse; the empty scheme is among them). -/
def uses_params : List (List Char) :=
  ["", "ftp", "hdl", "prospero", "http", "imap", "https", "shttp", "rtsp", "rtsps",
   "rtspu", "sip", "sips", "mms", "sftp", "tel"].map String.toList

/-- Schemes treated as carrying a network location by urlunsplit (uses_netloc
of urllib.parse). -/
def uses_netloc : List (List Char) :=
  ["", "ftp", "http", "gopher", "nntp", "telnet", "imap", "wais", "file", "mms",
   "https", "shttp", "snews", "prospero", "rtsp", "rtsps", "rtspu", "rsync", "svn",
   "svn+ssh", "sftp", "nfs", "git", "git+ssh", "ws", "wss"].map String.toList

/-- Embedding of _splitparams of urllib.parse: when the path contains a slash,
the split is at the first semicolon at or after the last slash (no parameters
when there is none); otherwise at the first semicolon.  urlparse only calls
this when a semicolon is present. -/
def pySplitparams (u : List Char) : List Char × List Char :=
  match splitLast '/' u with
  | some (before, after) =>
    match splitFirst ';' after with
    | none => (u, [])
    | some (a2, b2) => (before ++ '/' :: a2, b2)
  | none =>
    match splitFirst ';' u with
    | none => (u, [])
    | some (a, b) => (a, b)

/-- Parameter phase of urlparse: for a scheme in uses_params whose path
carries a semicolon the path is split by _splitparams, otherwise the
parameters are empty. -/
def paramsPhase (scheme upath : List Char) : List Char × List Char :=
  if uses_params.contains scheme && upath.contains ';' then pySplitparams upath
  else (upath, [])

/-- Embedding of urllib.parse.urlparse (CPython 3.11): urlsplit, then the
parameter split on the path for schemes in uses_params. -/
def pyUrlparse (url0 : List Char) : Except Unit URLComponents :=
  match pyUrlsplit url0 with
  | .error e => .error e
  | .ok s =>
    let pp := paramsPhase s.scheme s.path
    .ok ⟨s.scheme, s.netloc, pp.1, pp.2, s.query, s.fragment⟩

/-- Path and parameters re-joined with a semicolon, as urlunparse does before
delegating to urlunsplit. -/
def joinParams (path params : List Char) : List Char :=
  if params.isEmpty then path else path ++ ';' :: params

/-- Embedding of urllib.parse.urlunsplit (CPython 3.11). -/
def pyUrlunsplit (scheme netloc url query fragment : List Char) : List Char :=
  let url1 :=
    if !netloc.isEmpty ||
       (!scheme.isEmpty && uses_netloc.contains scheme && url.take 2 ≠ ['/', '/']) then
      '/' :: '/' :: netloc ++ (if !url.isEmpty && url.take 1 ≠ ['/'] then '/' :: url else url)
    else url
  let url2 := if !scheme.isEmpty then scheme ++ ':' :: url1 else url1
  let url3 := if !query.isEmpty then url2 ++ '?' :: query else url2
  if !fragment.isEmpty then url3 ++ '#' :: fragment else url3

/-- Embedding of urllib.parse.urlunparse (CPython 3.11). -/
def pyUrlunparse (c : URLComponents) : List Char :=
  pyUrlunsplit c.scheme c.netloc (joinParams c.path c.params) c.query c.fragment

/-- List-level form of utils.remove_query_params (utils.py lines 50-61):
urlparse, then urlunparse of the same components with the query replaced by
the empty string and the fragment passed through unchanged. -/
def rqpList (u : List Char) : Except Unit (List Char) :=
  match pyUrlparse u with
  | .error e => .error e
  | .ok c => .ok (pyUrlunparse { c with query := [] })

/-- Embedding of utils.remove_query_params (utils.py lines 50-61) on
strings. -/
def remove_query_params (url : String) : Except Unit String :=
  (rqpList url.toList).map String.mk

/-- Statement that no scheme would be split off a text: every split at the
first colon fails the scheme validity check. -/
def noSchemeSplit (s : List Char) : Prop :=
  ∀ a b, splitFirst ':' s = some (a, b) → schemeCheckOK a = false

/-- Components for which unparsing and re-parsing is an exact round trip (the
cases excluded are a path starting with two slashes under an empty netloc,
where re-parsing absorbs path characters into the netloc, and the slash
insertion urlunsplit performs for netloc-carrying schemes on a relative
path). -/
def exactRoundTripCond (c : URLComponents) : Prop :=
  c.netloc ≠ [] ∨
  ((joinParams c.path c.params).take 2 ≠ ['/', '/'] ∧
   ¬(c.scheme ≠ [] ∧ uses_netloc.contains c.scheme = true ∧
     joinParams c.path c.params ≠ [] ∧ (joinParams c.path c.params).take 1 ≠ ['/']))

/-- Final segment of a path: the text after the last slash, or the whole path
when it has no slash (the segment _splitparams inspects for a semicolon). -/
def lastSeg (p : List Char) : List Char :=
  match splitLast '/' p with
  | some pr => pr.2
  | none => p

/-- Well-formedness facts satisfied by every component record urlparse
produces, stated for a record whose query has been cleared (the fields do not
constrain the query).  These are the facts the round-trip proofs consume. -/
structure ParsedWf (c : URLComponents) : Prop where
  scheme_lower : c.scheme.map asciiLower = c.scheme
  scheme_chars : ∀ ch ∈ c.scheme, isSchemeChar ch = true
  scheme_head : ∀ ch t, c.scheme = ch :: t → ch.isAlpha = true
  netloc_chars : ∀ ch ∈ c.netloc, netlocDelim ch = false
  netloc_brackets : ((c.netloc.contains '[' && ! c.netloc.contains ']') ||
    (c.netloc.contains ']' && ! c.netloc.contains '[')) = false
  path_chars : '?' ∉ c.path ∧ '#' ∉ c.path
  params_chars : '?' ∉ c.params ∧ '#' ∉ c.params ∧ '/' ∉ c.params
  params_split : paramsPhase c.scheme (joinParams c.path c.params) = (c.path, c.params)
  seg_clean : (c.params ≠ [] ∨ (uses_params.contains c.scheme = true ∧ ';' ∈ c.path)) →
    ';' ∉ lastSeg c.path
  netloc_path : c.netloc ≠ [] → joinParams c.path c.params = [] ∨
    (joinParams c.path c.params).take 1 = ['/']
  no_scheme : c.scheme = [] → c.netloc = [] →
    (joinParams c.path c.params).take 1 ≠ ['/'] → noSchemeSplit (joinParams c.path c.params)
  clean_chars : ∀ ch, (ch ∈ c.scheme ∨ ch ∈ c.netloc ∨ ch ∈ c.path ∨ ch ∈ c.params ∨
    ch ∈ c.fragment) → isUnsafeURLByte ch = false
  head_clean : c.scheme = [] → c.netloc = [] →
    ∀ ch t, joinParams c.path c.params = ch :: t → isC0OrSpace ch = false

/-!
Theorems.  Each claim of the natural-language specification is settled by one
named theorem below; helper lemmas carry no claim name.
-/

theorem tenacityGo_attempt_bound (f : Nat → Except PyExc α) :
    ∀ rem a, (tenacityGo f a rem).2 ≤ a + rem + 1 := by
  intro rem
  induction rem with
  | zero => intro a; simp [tenacityGo]
  | succ n ih =>
    intro a
    simp only [tenacityGo]
    cases h : f a with
    | ok v => simp
    | error e =>
      by_cases hr : shouldRetry e = true
      · simp only [hr, if_true]
        have := ih (a + 1)
        omega
      · simp only [Bool.not_eq_true] at hr
        simp only [hr, Bool.false_eq_true, if_false]
        simp

/-- C5 counterexample: requesting episode number 0 of a three-episode list
does not fail; Python evaluates episodes[0 - 1] = episodes[-1] and the token
of the third (last) episode is returned. -/
theorem fetch_episode_bvid_zero_returns_last :
    fetch_episode_bvid ["b1", "b2", "b3"] 0 = .ok "b3" ∧
    fetch_episode_bvid ["b1", "b2", "b3"] 0 ≠ .error .indexError := by decide

/-- C5 amended: fetch_episode_bvid is 1-indexed in range (episode e with
1 <= e <= n returns the e-th token); an episode number e with
1 - n <= e <= 0 wraps around via Python negative indexing and returns the
(n + e)-th token instead of failing; only e > n or e < 1 - n raise, and they
raise a bare IndexError. -/
theorem fetch_episode_bvid_indexing (l : List String) (e : Int) :
    (1 ≤ e → e ≤ l.length → ∃ b, l[(e - 1).toNat]? = some b ∧
      fetch_episode_bvid l e = .ok b) ∧
    (1 - (l.length : Int) ≤ e → e ≤ 0 → ∃ b, l[(l.length + e - 1).toNat]? = some b ∧
      fetch_episode_bvid l e = .ok b) ∧
    ((e < 1 - (l.length : Int) ∨ (l.length : Int) < e) →
      fetch_episode_bvid l e = .error .indexError) := by
  unfold fetch_episode_bvid pyListGet
  refine ⟨?_, ?_, ?_⟩
  · intro h1 h2
    have hc : ¬ (e - 1 < 0) := by omega
    simp only [hc, if_false]
    have hb : 0 ≤ e - 1 ∧ e - 1 < (l.length : Int) := by omega
    have hlt : (e - 1).toNat < l.length := by omega
    simp only [hb, and_self, dif_pos]
    exact ⟨l[(e - 1).toNat], List.getElem?_eq_getElem hlt, by simp [List.get_eq_getElem]⟩
  · intro h1 h2
    have hc : e - 1 < 0 := by omega
    simp only [hc, if_true]
    have hb : 0 ≤ e - 1 + (l.length : Int) ∧ e - 1 + (l.length : Int) < (l.length : Int) := by
      omega
    have hlt : (e - 1 + (l.length : Int)).toNat < l.length := by omega
    simp only [hb, and_self, dif_pos]
    refine ⟨l[(e - 1 + (l.length : Int)).toNat], ?_, by simp [List.get_eq_getElem]⟩
    have harg : ((l.length : Int) + e - 1).toNat = (e - 1 + (l.length : Int)).toNat := by omega
    rw [harg]
    exact List.getElem?_eq_getElem hlt
  · intro h
    by_cases hc : e - 1 < 0
    · have hb : ¬ (0 ≤ e - 1 + (l.length : Int) ∧ e - 1 + (l.length : Int) < (l.length : Int)) := by
        omega
      simp only [hc, if_true, hb, dif_neg, not_false_eq_true]
    · have hb : ¬ (0 ≤ e - 1 ∧ e - 1 < (l.length : Int)) := by omega
      simp only [hc, if_false, hb, dif_neg, not_false_eq_true]

theorem fetch_episode_bvid_indexing_witness :
    ∃ b, (["b1", "b2", "b3"] : List String)[((2 : Int) - 1).toNat]? = some b ∧
      fetch_episode_bvid ["b1", "b2", "b3"] 2 = .ok b :=
  (fetch_episode_bvid_indexing ["b1", "b2", "b3"] 2).1 (by decide) (by decide)

/-- C2 counterexample: a plain connection error is a transient transport
error in the specification's classification, yet the code performs a single
attempt and no retry, because the tenacity predicate lists only ProxyError
and TimeoutError. -/
theorem connection_error_transient_not_retried :
    isTransientSpec .connectionError = true ∧ shouldRetry .connectionError = false ∧
    fetch_video_url (fun _ => .transport .connectionError) = (.error .connectionError, 1) := by
  decide

/-- C2 amended: fetch_video_url makes at most 3 total attempts; an attempt is
retried exactly when it fails with ProxyError or TimeoutError (plain
connection errors are not retried); a response with application-level
code != 0 raises ValueError on the first attempt with no retry; and when all
3 attempts fail with a retried error the last error propagates. -/
theorem fetch_video_url_retry_policy :
    (∀ up, (fetch_video_url up).2 ≤ 3) ∧
    (∀ up st code url, up 0 = .response st code url → st < 400 → code ≠ 0 →
      fetch_video_url up = (.error (.valueError "Failed to retrieve video URL"), 1)) ∧
    (∀ up e, (∀ i, up i = .transport e) → shouldRetry e = true →
      fetch_video_url up = (.error e, 3)) ∧
    (∀ up e, up 0 = .transport e → shouldRetry e = false →
      fetch_video_url up = (.error e, 1)) := by
  refine ⟨?_, ?_, ?_, ?_⟩
  · intro up
    have h := tenacityGo_attempt_bound (fun i => bparseAttempt (up i)) 2 0
    simpa [fetch_video_url] using h
  · intro up st code url h0 hst hcode
    have hb : bparseAttempt (up 0) = .error (.valueError "Failed to retrieve video URL") := by
      rw [h0]
      simp only [bparseAttempt]
      rw [if_neg (by omega), if_pos hcode]
    simp [fetch_video_url, tenacityGo, hb, shouldRetry]
  · intro up e hall hr
    have hb : ∀ i, bparseAttempt (up i) = .error e := fun i => by
      rw [hall i]
      rfl
    simp [fetch_video_url, tenacityGo, hb, hr]
  · intro up e h0 hr
    have hb : bparseAttempt (up 0) = .error e := by
      rw [h0]
      rfl
    simp [fetch_video_url, tenacityGo, hb, hr]

theorem fetch_video_url_retry_policy_witness :
    fetch_video_url (fun _ => .transport .timeoutError) = (.error .timeoutError, 3) :=
  fetch_video_url_retry_policy.2.2.1 (fun _ => .transport .timeoutError) .timeoutError
    (fun _ => rfl) (by decide)

/-- C3 counterexample: an upstream 200 response whose body carries code = -404
makes the resolution fail with ValueError, yet the response is stored in the
cache (aiohttp-client-cache stores by HTTP status alone), and the immediately
repeated identical request is served from the cache: no upstream call, same
failure. -/
theorem failed_resolution_is_cached :
    let key : CacheKey := ("https://api.injahow.cn/bparse/", [("bv", "BV1xK4y1p7")])
    let r1 := fetchVideoURLCachedOnce ⟨[]⟩ key (.response 200 (-404) "")
    let r2 := fetchVideoURLCachedOnce r1.cache key (.response 200 0 "fresh")
    r1.result = .error (.valueError "Failed to retrieve video URL") ∧
    cacheLookup r1.cache key = some ⟨200, -404, ""⟩ ∧
    r2.upstreamCalled = false ∧
    r2.result = .error (.valueError "Failed to retrieve video URL") := by
  decide

/-- C3 amended: after a cache miss, a transport failure stores nothing, a
response with an HTTP status other than 200 stores nothing, and a response
with HTTP status 200 is stored under the request key whether or not its
application-level code is 0; so only the transport-failure and non-200 cases
lead to a fresh upstream call on repetition, while cached 200-status
application-level failures are replayed from the cache. -/
theorem cache_stores_exactly_http200 (cache : CacheState) (key : CacheKey) :
    cacheLookup cache key = none →
    (∀ e, (fetchVideoURLCachedOnce cache key (.transport e)).cache = cache) ∧
    (∀ st code url, st ≠ 200 →
      (fetchVideoURLCachedOnce cache key (.response st code url)).cache = cache) ∧
    (∀ code url,
      cacheLookup (fetchVideoURLCachedOnce cache key (.response 200 code url)).cache key =
        some ⟨200, code, url⟩) := by
  intro hmiss
  refine ⟨?_, ?_, ?_⟩
  · intro e
    simp [fetchVideoURLCachedOnce, hmiss]
  · intro st code url hst
    simp [fetchVideoURLCachedOnce, hmiss, hst]
  · intro code url
    unfold fetchVideoURLCachedOnce
    rw [hmiss]
    simp [cacheLookup, cacheInsert, List.find?]

theorem cache_stores_exactly_http200_witness :
    cacheLookup (fetchVideoURLCachedOnce ⟨[]⟩ ("u", []) (.response 200 7 "x")).cache ("u", []) =
      some ⟨200, 7, "x"⟩ :=
  ((cache_stores_exactly_http200 ⟨[]⟩ ("u", []) rfl).2.2) 7 "x"

/-- C4 counterexample: on a non-success upstream status the generator yields
the single chunk b"" and terminates normally; it does not signal failure and
its yield sequence is not empty. -/
theorem stream_failure_not_signalled :
    (video_stream_generator ⟨false, [[1, 2], [3]]⟩).raised = false ∧
    (video_stream_generator ⟨false, [[1, 2], [3]]⟩).yielded = [[]] := by decide

/-- C4 amended: on a non-success upstream status video_stream_generator yields
exactly one empty chunk and terminates without raising, so the caller sees an
apparently successful stream carrying zero data bytes. -/
theorem video_stream_generator_failure (resp : StreamResponse) :
    resp.ok = false →
    video_stream_generator resp = ⟨[[]], false⟩ ∧
    ((video_stream_generator resp).yielded.map List.length).sum = 0 := by
  intro h
  have he : video_stream_generator resp = ⟨[[]], false⟩ := by
    simp [video_stream_generator, h]
  exact ⟨he, by rw [he]; rfl⟩

theorem video_stream_generator_failure_witness :
    video_stream_generator ⟨false, [[7]]⟩ = ⟨[[]], false⟩ ∧
    ((video_stream_generator ⟨false, [[7]]⟩).yielded.map List.length).sum = 0 :=
  video_stream_generator_failure ⟨false, [[7]]⟩ rfl

/-- C8 confirmed: on a success transport status with a top-level code other
than 0, fetch_video_info raises ValueError carrying the upstream message when
one is present and the fallback text otherwise, and never returns metadata
(the ValueError realizes the specification's VideoNotFound). -/
theorem fetch_video_info_not_found (status : Nat) (body : ViewBody) :
    status < 400 → body.code ≠ 0 →
    fetch_video_info status body =
      .error (.valueError (body.message.getD "Invalid Bilibili video ID")) := by
  intro hst hcode
  unfold fetch_video_info
  rw [if_neg (by omega), if_pos hcode]

theorem fetch_video_info_not_found_witness :
    fetch_video_info 200 ⟨-400, some "id not found", none⟩ =
      .error (.valueError "id not found") :=
  fetch_video_info_not_found 200 ⟨-400, some "id not found", none⟩ (by omega) (by decide)

/-- C9 confirmed: whenever the required fields title, desc, owner, stat,
dimension and pic are present, decoding succeeds, and every defaultable field
takes its documented default exactly when absent: owner name ??? when absent,
counters 0, dimensions 1920 by 1080, page list empty. -/
theorem decodeVideoData_defaults (title desc pic : String) (ow : OwnerPayload)
    (st : StatPayload) (dim : DimensionPayload) (pages : Option (List PagePayload)) :
    decodeVideoData ⟨some title, some desc, some ow, some st, some dim, some pic, pages⟩ =
      .ok ⟨title, desc, ⟨ow.name.getD "???"⟩,
           ⟨st.view.getD 0, st.coin.getD 0, st.share.getD 0, st.like.getD 0, st.favorite.getD 0⟩,
           ⟨dim.width.getD 1920, dim.height.getD 1080⟩, pic,
           (pages.getD []).map (fun pg => ⟨pg.first_frame⟩)⟩ := rfl

/-- C1 as written fails on the code: whenever the metadata stage succeeds, the
handler call fetch_video_url(proxy_session, bvid=bvid) of main.py lines 77 and
101 raises TypeError, because utils.fetch_video_url accepts the parameters
(session, request) and no parameter named bvid exists; the stream URL is never
returned and no document is rendered, for every identifier and every upstream
behaviour. -/
theorem bilibili_embed_raises_type_error (metaStatus : Nat) (metaBody : ViewBody)
    (up : Nat → UpstreamResult) (cur : String) (v : VideoData) :
    fetch_video_info metaStatus metaBody = .ok v →
    bilibili_embed metaStatus metaBody up cur =
      .error (.typeError "got an unexpected keyword argument") := by
  intro h
  unfold bilibili_embed
  rw [h]
  rfl

theorem bilibili_embed_raises_type_error_witness :
    bilibili_embed 200
      ⟨0, none, some ⟨some "T", some "D", some ⟨some "O"⟩,
        some ⟨some 1, some 2, some 3, some 4, some 5⟩, some ⟨some 100, some 200⟩,
        some "P", some []⟩⟩
      (fun _ => .response 200 0 "https://u") "cur" =
      .error (.typeError "got an unexpected keyword argument") :=
  bilibili_embed_raises_type_error 200
    ⟨0, none, some ⟨some "T", some "D", some ⟨some "O"⟩,
      some ⟨some 1, some 2, some 3, some 4, some 5⟩, some ⟨some 100, some 200⟩,
      some "P", some []⟩⟩
    (fun _ => .response 200 0 "https://u") "cur"
    ⟨"T", "D", ⟨"O"⟩, ⟨1, 2, 3, 4, 5⟩, ⟨100, 200⟩, "P", []⟩ rfl

theorem stripLit_sound (lit : List Char) :
    ∀ s r, stripLit lit s = some r → s = lit ++ r := by
  induction lit with
  | nil =>
    intro s r h
    simp only [stripLit, Option.some.injEq] at h
    rw [h, List.nil_append]
  | cons l ls ih =>
    intro s r h
    cases s with
    | nil => simp [stripLit] at h
    | cons c cs =>
      simp only [stripLit] at h
      by_cases hc : c = l
      · rw [if_pos hc] at h
        rw [hc, List.cons_append]
        exact congrArg (l :: ·) (ih cs r h)
      · rw [if_neg hc] at h
        cases h

theorem dotChar_sound (s r : List Char) (h : dotChar s = some r) :
    ∃ c, s = c :: r ∧ c ≠ '\n' := by
  cases s with
  | nil => simp [dotChar] at h
  | cons c cs =>
    simp only [dotChar] at h
    by_cases hc : c = '\n'
    · rw [if_pos hc] at h; cases h
    · rw [if_neg hc] at h
      exact ⟨c, by rw [Option.some.injEq] at h; rw [h], hc⟩

theorem mem_takeWhile_pred (p : Char → Bool) :
    ∀ (l : List Char) (c : Char), c ∈ l.takeWhile p → p c = true := by
  intro l
  induction l with
  | nil => intro c h; simp [List.takeWhile] at h
  | cons a t ih =>
    intro c h
    rw [List.takeWhile_cons] at h
    by_cases hp : p a = true
    · rw [if_pos hp] at h
      rcases List.mem_cons.mp h with he | ht
      · rw [he]; exact hp
      · exact ih c ht
    · rw [if_neg hp] at h
      cases h

theorem matchTail_sound (s tok : List Char) (h : matchTail s = some tok) :
    ∃ d rest,
      s = ['b', 'i', 'l', 'i', 'b', 'i', 'l', 'i'] ++ d ::
          (['c', 'o', 'm', '/', 'v', 'i', 'd', 'e', 'o', '/'] ++ (tok ++ rest)) ∧
      d ≠ '\n' ∧ tok ≠ [] ∧ ∀ c ∈ tok, isWordChar c = true := by
  unfold matchTail at h
  cases h1 : stripLit ['b', 'i', 'l', 'i', 'b', 'i', 'l', 'i'] s with
  | none => simp [h1] at h
  | some s1 =>
    simp only [h1] at h
    cases h2 : dotChar s1 with
    | none => simp [h2] at h
    | some s2 =>
      simp only [h2] at h
      cases h3 : stripLit ['c', 'o', 'm', '/', 'v', 'i', 'd', 'e', 'o', '/'] s2 with
      | none => simp [h3] at h
      | some s3 =>
        simp only [h3] at h
        by_cases he : (s3.takeWhile isWordChar).isEmpty = true
        · rw [if_pos he] at h; cases h
        · rw [if_neg he] at h
          rw [Option.some.injEq] at h
          obtain ⟨d, hs1, hd⟩ := dotChar_sound s1 s2 h2
          refine ⟨d, s3.dropWhile isWordChar, ?_, hd, ?_, ?_⟩
          · rw [stripLit_sound _ _ _ h1, hs1, stripLit_sound _ _ _ h3, ← h,
              List.takeWhile_append_dropWhile]
          · intro hnil
            exact he (by rw [h, hnil]; rfl)
          · intro c hc
            rw [← h] at hc
            exact mem_takeWhile_pred isWordChar s3 c hc

theorem matchAt_sound (s tok : List Char) (h : matchAt s = some tok) :
    liberalOccurrence s tok := by
  unfold matchAt at h
  cases h0 : stripLit ['h', 't', 't', 'p', 's', ':', '/', '/'] s with
  | none => simp [h0] at h
  | some s0 =>
    simp only [h0] at h
    have hs : s = ['h', 't', 't', 'p', 's', ':', '/', '/'] ++ s0 := stripLit_sound _ _ _ h0
    cases hw : stripLit ['w', 'w', 'w'] s0 >>= dotChar >>= matchTail with
    | none =>
      rw [hw, Option.none_orElse] at h
      cases hm : stripLit ['m'] s0 >>= dotChar >>= matchTail with
      | none =>
        rw [hm, Option.none_orElse] at h
        obtain ⟨d, rest, he, hd, hne, hall⟩ := matchTail_sound s0 tok h
        exact ⟨[], [], d, rest, by rw [hs, he]; simp, hd, Or.inl rfl, hne, hall⟩
      | some tm =>
        rw [hm, Option.some_orElse, Option.some.injEq] at h
        cases hm1 : stripLit ['m'] s0 with
        | none => rw [hm1] at hm; cases hm
        | some sm1 =>
          rw [hm1] at hm
          simp only [Option.bind_eq_bind, Option.some_bind] at hm
          cases hm2 : dotChar sm1 with
          | none => rw [hm2] at hm; cases hm
          | some sm2 =>
            rw [hm2] at hm
            simp only [Option.bind_eq_bind, Option.some_bind] at hm
            obtain ⟨d2, hsm1, hd2⟩ := dotChar_sound sm1 sm2 hm2
            obtain ⟨d, rest, he, hd, hne, hall⟩ := matchTail_sound sm2 tm hm
            refine ⟨[], ['m', d2], d, rest, ?_, hd, Or.inr ⟨d2, hd2, Or.inr rfl⟩,
              h ▸ hne, fun c hc => hall c (h ▸ hc)⟩
            rw [hs, stripLit_sound _ _ _ hm1, hsm1, he, ← h]
            simp [List.append_assoc, List.cons_append, List.nil_append]
    | some tw =>
      rw [hw, Option.some_orElse, Option.some.injEq] at h
      cases hw1 : stripLit ['w', 'w', 'w'] s0 with
      | none => rw [hw1] at hw; cases hw
      | some sw1 =>
        rw [hw1] at hw
        simp only [Option.bind_eq_bind, Option.some_bind] at hw
        cases hw2 : dotChar sw1 with
        | none => rw [hw2] at hw; cases hw
        | some sw2 =>
          rw [hw2] at hw
          simp only [Option.bind_eq_bind, Option.some_bind] at hw
          obtain ⟨d2, hsw1, hd2⟩ := dotChar_sound sw1 sw2 hw2
          obtain ⟨d, rest, he, hd, hne, hall⟩ := matchTail_sound sw2 tw hw
          refine ⟨[], ['w', 'w', 'w', d2], d, rest, ?_, hd, Or.inr ⟨d2, hd2, Or.inl rfl⟩,
            h ▸ hne, fun c hc => hall c (h ▸ hc)⟩
          rw [hs, stripLit_sound _ _ _ hw1, hsw1, he, ← h]
          simp [List.append_assoc, List.cons_append, List.nil_append]

theorem reSearchBVID_sound :
    ∀ s tok, reSearchBVID s = some tok → liberalOccurrence s tok := by
  intro s
  induction s with
  | nil => intro tok h; cases h
  | cons c cs ih =>
    intro tok h
    unfold reSearchBVID at h
    cases hm : matchAt (c :: cs) with
    | some t =>
      rw [hm] at h
      rw [Option.some.injEq] at h
      exact h ▸ matchAt_sound (c :: cs) t hm
    | none =>
      rw [hm] at h
      obtain ⟨pre, sub, d, rest, he, hd, hsub, hne, hall⟩ := ih tok h
      refine ⟨c :: pre, sub, d, rest, ?_, hd, hsub, hne, hall⟩
      rw [he]
      simp

/-- C6 counterexample: the input is a URL on the host m-bilibili.com, which
does not match the literal watch-page pattern (specPatternOccurs is false),
yet extract_bvid returns the token, because the dots in the regular expression
are unescaped and match any character. -/
theorem extract_bvid_foreign_host :
    specPatternOccurs "https://m-bilibili.com/video/BV1xK4y1p7".toList = false ∧
    extract_bvid "https://m-bilibili.com/video/BV1xK4y1p7" = some "BV1xK4y1p7" := by
  decide

/-- C6 amended: extract_bvid returns a token only when its input contains, at
some position, the liberal pattern the unescaped-dot regex actually matches -
https:// then an optional www or m subdomain group whose dot matches any
non-newline character, the literal bilibili, any non-newline character in
place of the dot before com, then com/video/ and the non-empty word-character
token that is returned.  Inputs without such an occurrence (including all
strings without an https:// watch-page-like substring) yield no identifier,
but hosts such as m-bilibili.com or bilibiliXcom do yield tokens, so the
claimed never-extract guarantee only holds for this liberal pattern, not for
the literal one. -/
theorem extract_bvid_sound (u t : String) :
    extract_bvid u = some t → liberalOccurrence u.toList t.toList := by
  intro h
  unfold extract_bvid at h
  cases hr : reSearchBVID u.toList with
  | none => rw [hr] at h; cases h
  | some l =>
    rw [hr] at h
    simp only [Option.map_some', Option.some.injEq] at h
    have hl : t.toList = l := by rw [← h]; rfl
    rw [hl]
    exact reSearchBVID_sound u.toList l hr

theorem extract_bvid_sound_witness :
    liberalOccurrence "https://m-bilibili.com/video/BV1xK4y1p7".toList "BV1xK4y1p7".toList :=
  extract_bvid_sound "https://m-bilibili.com/video/BV1xK4y1p7" "BV1xK4y1p7" (by decide)

theorem char_eq_iff_toNat (c d : Char) : c = d ↔ c.toNat = d.toNat := by
  constructor
  · intro h; rw [h]
  · intro h
    apply Char.eq_of_val_eq
    apply UInt32.eq_of_toBitVec_eq
    apply BitVec.eq_of_toNat_eq
    exact h

theorem isUpper_iff (c : Char) : c.isUpper = true ↔ 65 ≤ c.toNat ∧ c.toNat ≤ 90 := by
  simp only [Char.isUpper, Bool.and_eq_true, decide_eq_true_eq, ge_iff_le,
    UInt32.le_def, BitVec.le_def, UInt32.toBitVec_ofNat, BitVec.toNat_ofNat]
  norm_num
  rfl

theorem isLower_iff (c : Char) : c.isLower = true ↔ 97 ≤ c.toNat ∧ c.toNat ≤ 122 := by
  simp only [Char.isLower, Bool.and_eq_true, decide_eq_true_eq, ge_iff_le,
    UInt32.le_def, BitVec.le_def, UInt32.toBitVec_ofNat, BitVec.toNat_ofNat]
  norm_num
  rfl

theorem isDigit_iff (c : Char) : c.isDigit = true ↔ 48 ≤ c.toNat ∧ c.toNat ≤ 57 := by
  simp only [Char.isDigit, Bool.and_eq_true, decide_eq_true_eq, ge_iff_le,
    UInt32.le_def, BitVec.le_def, UInt32.toBitVec_ofNat, BitVec.toNat_ofNat]
  norm_num
  rfl

theorem isAlpha_iff (c : Char) :
    c.isAlpha = true ↔ (65 ≤ c.toNat ∧ c.toNat ≤ 90) ∨ (97 ≤ c.toNat ∧ c.toNat ≤ 122) := by
  simp only [Char.isAlpha, Bool.or_eq_true, isUpper_iff, isLower_iff]

theorem isSchemeChar_iff (c : Char) :
    isSchemeChar c = true ↔ (65 ≤ c.toNat ∧ c.toNat ≤ 90) ∨ (97 ≤ c.toNat ∧ c.toNat ≤ 122) ∨
      (48 ≤ c.toNat ∧ c.toNat ≤ 57) ∨ c.toNat = 43 ∨ c.toNat = 45 ∨ c.toNat = 46 := by
  have h43 : '+'.toNat = 43 := rfl
  have h45 : '-'.toNat = 45 := rfl
  have h46 : '.'.toNat = 46 := rfl
  simp only [isSchemeChar, Bool.or_eq_true, isAlpha_iff, isDigit_iff, decide_eq_true_eq,
    char_eq_iff_toNat, h43, h45, h46]
  omega

theorem isC0OrSpace_iff (c : Char) : isC0OrSpace c = true ↔ c.toNat ≤ 32 := by
  simp [isC0OrSpace]

theorem isUnsafeURLByte_iff (c : Char) :
    isUnsafeURLByte c = true ↔ c.toNat = 9 ∨ c.toNat = 13 ∨ c.toNat = 10 := by
  have h9 : '\t'.toNat = 9 := rfl
  have h13 : '\r'.toNat = 13 := rfl
  have h10 : '\n'.toNat = 10 := rfl
  simp only [isUnsafeURLByte, Bool.or_eq_true, decide_eq_true_eq, char_eq_iff_toNat,
    h9, h13, h10]
  omega

theorem netlocDelim_iff (c : Char) :
    netlocDelim c = true ↔ c.toNat = 47 ∨ c.toNat = 63 ∨ c.toNat = 35 := by
  have h47 : '/'.toNat = 47 := rfl
  have h63 : '?'.toNat = 63 := rfl
  have h35 : '#'.toNat = 35 := rfl
  simp only [netlocDelim, Bool.or_eq_true, decide_eq_true_eq, char_eq_iff_toNat,
    h47, h63, h35]
  omega

theorem asciiLower_cases (c : Char) :
    (c.isUpper = true ∧ (asciiLower c).toNat = c.toNat + 32) ∨
    (c.isUpper = false ∧ asciiLower c = c) := by
  by_cases h : c.isUpper = true
  · left
    refine ⟨h, ?_⟩
    unfold asciiLower
    rw [if_pos h]
    have hb := (isUpper_iff c).mp h
    unfold Char.ofNat
    rw [dif_pos (Or.inl (by omega))]
    rfl
  · right
    simp only [Bool.not_eq_true] at h
    exact ⟨h, by unfold asciiLower; rw [h]; simp⟩

theorem asciiLower_idem (c : Char) : asciiLower (asciiLower c) = asciiLower c := by
  rcases asciiLower_cases c with ⟨hu, ht⟩ | ⟨hu, he⟩
  · rcases asciiLower_cases (asciiLower c) with ⟨hu2, _⟩ | ⟨_, he2⟩
    · have hb := (isUpper_iff c).mp hu
      have hb2 := (isUpper_iff (asciiLower c)).mp hu2
      omega
    · exact he2
  · rw [he, he]

theorem asciiLower_schemeChar (c : Char) (h : isSchemeChar c = true) :
    isSchemeChar (asciiLower c) = true := by
  rcases asciiLower_cases c with ⟨hu, ht⟩ | ⟨_, he⟩
  · have hb := (isUpper_iff c).mp hu
    rw [isSchemeChar_iff, ht]
    omega
  · rw [he]; exact h

theorem asciiLower_alpha (c : Char) (h : c.isAlpha = true) :
    (asciiLower c).isAlpha = true := by
  rcases asciiLower_cases c with ⟨hu, ht⟩ | ⟨_, he⟩
  · have hb := (isUpper_iff c).mp hu
    rw [isAlpha_iff, ht]
    omega
  · rw [he]; exact h

theorem asciiLower_safe (c : Char) (h : isUnsafeURLByte c = false) :
    isUnsafeURLByte (asciiLower c) = false := by
  rcases asciiLower_cases c with ⟨hu, ht⟩ | ⟨_, he⟩
  · have hb := (isUpper_iff c).mp hu
    cases hb2 : isUnsafeURLByte (asciiLower c) with
    | false => rfl
    | true =>
      have := (isUnsafeURLByte_iff (asciiLower c)).mp hb2
      omega
  · rw [he]; exact h

theorem schemeChar_ne (c : Char) (h : isSchemeChar c = true) :
    c ≠ ':' ∧ c ≠ '#' ∧ c ≠ '?' ∧ c ≠ '/' ∧ c ≠ ';' := by
  have hb := (isSchemeChar_iff c).mp h
  have h58 : ':'.toNat = 58 := rfl
  have h35 : '#'.toNat = 35 := rfl
  have h63 : '?'.toNat = 63 := rfl
  have h47 : '/'.toNat = 47 := rfl
  have h59 : ';'.toNat = 59 := rfl
  refine ⟨?_, ?_, ?_, ?_, ?_⟩ <;> intro he <;> subst he <;>
    simp only [h58, h35, h63, h47, h59] at hb <;> omega

theorem alpha_not_c0 (c : Char) (h : c.isAlpha = true) : isC0OrSpace c = false := by
  have hb := (isAlpha_iff c).mp h
  cases hc : isC0OrSpace c with
  | false => rfl
  | true =>
    have := (isC0OrSpace_iff c).mp hc
    omega

theorem splitFirst_sound (d : Char) :
    ∀ u a b, splitFirst d u = some (a, b) → u = a ++ d :: b ∧ d ∉ a := by
  intro u
  induction u with
  | nil => intro a b h; cases h
  | cons c cs ih =>
    intro a b h
    unfold splitFirst at h
    by_cases hc : c = d
    · rw [if_pos hc] at h
      rw [Option.some.injEq, Prod.mk.injEq] at h
      obtain ⟨ha, hb⟩ := h
      rw [← ha, ← hb, hc]
      exact ⟨rfl, List.not_mem_nil d⟩
    · rw [if_neg hc] at h
      cases hsub : splitFirst d cs with
      | none => rw [hsub] at h; cases h
      | some p =>
        rw [hsub] at h
        rw [Option.some.injEq, Prod.mk.injEq] at h
        obtain ⟨ha, hb⟩ := h
        obtain ⟨he, hm⟩ := ih p.1 p.2 (by rw [hsub])
        rw [← ha, ← hb]
        constructor
        · rw [List.cons_append, ← he]
        · intro hmem
          rcases List.mem_cons.mp hmem with h1 | h2
          · exact hc h1.symm
          · exact hm h2

theorem splitFirst_of_not_mem (d : Char) : ∀ u, d ∉ u → splitFirst d u = none := by
  intro u
  induction u with
  | nil => intro _; rfl
  | cons c cs ih =>
    intro h
    unfold splitFirst
    rw [if_neg (fun hc => h (by rw [← hc]; exact List.mem_cons_self c cs)),
      ih (fun hm => h (List.mem_cons_of_mem c hm))]

theorem splitFirst_append_left (d : Char) :
    ∀ a t, d ∉ a → splitFirst d (a ++ t) =
      (splitFirst d t).map (fun p => (a ++ p.1, p.2)) := by
  intro a
  induction a with
  | nil =>
    intro t _
    simp only [List.nil_append]
    cases splitFirst d t with
    | none => rfl
    | some p => simp
  | cons c cs ih =>
    intro t h
    have hc : c ≠ d := fun hc => h (by rw [← hc]; exact List.mem_cons_self c cs)
    have hm : d ∉ cs := fun hm => h (List.mem_cons_of_mem c hm)
    rw [List.cons_append]
    simp only [splitFirst]
    rw [if_neg hc, ih t hm]
    cases splitFirst d t with
    | none => rfl
    | some p => simp

theorem splitFirst_append (d : Char) (a b : List Char) (h : d ∉ a) :
    splitFirst d (a ++ d :: b) = some (a, b) := by
  rw [splitFirst_append_left d a (d :: b) h]
  unfold splitFirst
  rw [if_pos rfl]
  simp

theorem splitFirst_extend (d : Char) (u t a b : List Char) (h : splitFirst d u = some (a, b)) :
    splitFirst d (u ++ t) = some (a, b ++ t) := by
  obtain ⟨he, hm⟩ := splitFirst_sound d u a b h
  rw [he, List.append_assoc, List.cons_append, splitFirst_append d a (b ++ t) hm]

theorem span_append (p : Char → Bool) :
    ∀ a b, (∀ c ∈ a, p c = true) → (b = [] ∨ ∃ c cs, b = c :: cs ∧ p c = false) →
      (a ++ b).takeWhile p = a ∧ (a ++ b).dropWhile p = b := by
  intro a
  induction a with
  | nil =>
    intro b _ hb
    simp only [List.nil_append]
    rcases hb with rfl | ⟨c, cs, rfl, hpc⟩
    · exact ⟨rfl, rfl⟩
    · rw [List.takeWhile_cons, List.dropWhile_cons, hpc]
      exact ⟨rfl, rfl⟩
  | cons x xs ih =>
    intro b ha hb
    have hx : p x = true := ha x (List.mem_cons_self x xs)
    rw [List.cons_append, List.takeWhile_cons, List.dropWhile_cons, hx]
    obtain ⟨h1, h2⟩ := ih b (fun c hc => ha c (List.mem_cons_of_mem x hc)) hb
    simp only [if_true]
    exact ⟨by rw [h1], h2⟩

theorem dropWhile_cases (p : Char → Bool) :
    ∀ (u : List Char), u.dropWhile p = [] ∨ ∃ c cs, u.dropWhile p = c :: cs ∧ p c = false := by
  intro u
  induction u with
  | nil => exact Or.inl rfl
  | cons c cs ih =>
    rw [List.dropWhile_cons]
    by_cases hp : p c = true
    · rw [if_pos hp]; exact ih
    · rw [if_neg hp]
      exact Or.inr ⟨c, cs, rfl, by simpa using hp⟩

theorem splitLast_sound (d : Char) (u a b : List Char) (h : splitLast d u = some (a, b)) :
    u = a ++ d :: b ∧ d ∉ b := by
  unfold splitLast at h
  cases hf : splitFirst d u.reverse with
  | none => rw [hf] at h; cases h
  | some p =>
    rw [hf] at h
    rw [Option.some.injEq, Prod.mk.injEq] at h
    obtain ⟨ha, hb⟩ := h
    obtain ⟨he, hm⟩ := splitFirst_sound d u.reverse p.1 p.2 (by rw [hf])
    constructor
    · have h2 := congrArg List.reverse he
      rw [List.reverse_reverse] at h2
      rw [h2, ← ha, ← hb]
      simp
    · rw [← hb]
      intro hmem
      exact hm (List.mem_reverse.mp hmem)

theorem splitLast_append (d : Char) (a b : List Char) (h : d ∉ b) :
    splitLast d (a ++ d :: b) = some (a, b) := by
  unfold splitLast
  have hrev : (a ++ d :: b).reverse = b.reverse ++ d :: a.reverse := by simp
  rw [hrev, splitFirst_append d b.reverse a.reverse (fun hm => h (List.mem_reverse.mp hm))]
  simp

theorem splitLast_of_not_mem (d : Char) (u : List Char) (h : d ∉ u) : splitLast d u = none := by
  unfold splitLast
  rw [splitFirst_of_not_mem d u.reverse (fun hm => h (List.mem_reverse.mp hm))]

theorem joinParams_of_ne (path params : List Char) (h : params ≠ []) :
    joinParams path params = path ++ ';' :: params := by
  unfold joinParams
  rw [if_neg (by simpa using h)]

theorem joinParams_nil (path : List Char) : joinParams path [] = path := rfl

theorem lastSeg_of_splitLast (p b a : List Char) (h : splitLast '/' p = some (b, a)) :
    lastSeg p = a := by
  unfold lastSeg
  rw [h]

theorem lastSeg_of_no_slash (p : List Char) (h : '/' ∉ p) : lastSeg p = p := by
  unfold lastSeg
  rw [splitLast_of_not_mem '/' p h]

theorem splitFirst_none_not_mem (d : Char) :
    ∀ u, splitFirst d u = none → d ∉ u := by
  intro u
  induction u with
  | nil => intro _ hm; exact absurd hm (List.not_mem_nil d)
  | cons c cs ih =>
    intro h hm
    unfold splitFirst at h
    by_cases hc : c = d
    · rw [if_pos hc] at h; cases h
    · rw [if_neg hc] at h
      cases hs : splitFirst d cs with
      | none =>
        rcases List.mem_cons.mp hm with h1 | h2
        · exact hc h1.symm
        · exact ih hs h2
      | some p => rw [hs] at h; cases h

theorem splitLast_none_not_mem (d : Char) (u : List Char) (h : splitLast d u = none) :
    d ∉ u := by
  unfold splitLast at h
  cases hf : splitFirst d u.reverse with
  | some p => rw [hf] at h; cases h
  | none =>
    intro hm
    exact splitFirst_none_not_mem d u.reverse hf (List.mem_reverse.mpr hm)

theorem lastSeg_cons_slash (p : List Char) : lastSeg ('/' :: p) = lastSeg p := by
  cases hsl : splitLast '/' p with
  | none =>
    have hns : '/' ∉ p := splitLast_none_not_mem '/' p hsl
    rw [lastSeg_of_no_slash p hns]
    have h2 : '/' :: p = [] ++ '/' :: p := rfl
    rw [h2, lastSeg_of_splitLast _ [] p (splitLast_append '/' [] p hns)]
  | some pr =>
    obtain ⟨he, hnm⟩ := splitLast_sound '/' p pr.1 pr.2 (by rw [hsl])
    have h2 : '/' :: p = ('/' :: pr.1) ++ '/' :: pr.2 := by rw [he]; rfl
    rw [lastSeg_of_splitLast p pr.1 pr.2 (by rw [hsl]), h2,
      lastSeg_of_splitLast _ ('/' :: pr.1) pr.2 (splitLast_append '/' _ _ hnm)]

theorem pySplitparams_of_seg_clean (p : List Char) (h : ';' ∉ lastSeg p) :
    pySplitparams p = (p, []) := by
  cases hsl : splitLast '/' p with
  | none =>
    have hns : '/' ∉ p := splitLast_none_not_mem '/' p hsl
    rw [lastSeg_of_no_slash p hns] at h
    unfold pySplitparams
    simp only [hsl]
    rw [splitFirst_of_not_mem ';' p h]
  | some pr =>
    rw [lastSeg_of_splitLast p pr.1 pr.2 (by rw [hsl])] at h
    unfold pySplitparams
    simp only [hsl]
    rw [splitFirst_of_not_mem ';' pr.2 h]

theorem pySplitparams_facts (u path params : List Char)
    (h : pySplitparams u = (path, params)) :
    (∃ r, u = joinParams path params ++ r) ∧
    (params ≠ [] → joinParams path params = u) ∧
    ';' ∉ lastSeg path ∧
    '/' ∉ params ∧
    (∀ c ∈ params, c ∈ u) ∧
    (∀ c ∈ path, c ∈ u) := by
  unfold pySplitparams at h
  cases hsl : splitLast '/' u with
  | some pr =>
    simp only [hsl] at h
    obtain ⟨heu, hslashaft⟩ := splitLast_sound '/' u pr.1 pr.2 (by rw [hsl])
    cases hsf : splitFirst ';' pr.2 with
    | none =>
      simp only [hsf] at h
      rw [Prod.mk.injEq] at h
      obtain ⟨hp, hq⟩ := h
      subst hp hq
      have hsemi : (';' : Char) ∉ pr.2 := splitFirst_none_not_mem ';' pr.2 hsf
      refine ⟨⟨[], by rw [joinParams_nil, List.append_nil]⟩,
        fun hc => absurd rfl hc, ?_, List.not_mem_nil '/',
        fun c hc => absurd hc (List.not_mem_nil c), fun c hc => hc⟩
      rw [lastSeg_of_splitLast u pr.1 pr.2 (by rw [hsl])]
      exact hsemi
    | some q =>
      simp only [hsf] at h
      rw [Prod.mk.injEq] at h
      obtain ⟨hp, hq⟩ := h
      obtain ⟨haft, hsemiq1⟩ := splitFirst_sound ';' pr.2 q.1 q.2 (by rw [hsf])
      have hq1slash : '/' ∉ q.1 := fun hm =>
        hslashaft (by rw [haft]; exact List.mem_append_left _ hm)
      have hq2slash : '/' ∉ q.2 := fun hm =>
        hslashaft (by rw [haft]; exact List.mem_append_right _ (List.mem_cons_of_mem ';' hm))
      have hpathseg : lastSeg path = q.1 := by
        rw [← hp]
        exact lastSeg_of_splitLast _ pr.1 q.1 (splitLast_append '/' pr.1 q.1 hq1slash)
      have hu : u = path ++ ';' :: params := by
        rw [heu, haft, ← hp, ← hq]
        simp
      refine ⟨?_, ?_, ?_, ?_, ?_, ?_⟩
      · by_cases hpe : params = []
        · exact ⟨[';'], by simp [hu, hpe, joinParams_nil]⟩
        · exact ⟨[], by rw [joinParams_of_ne path params hpe, List.append_nil, hu]⟩
      · intro hne
        rw [joinParams_of_ne path params hne, hu]
      · rw [hpathseg]; exact hsemiq1
      · rw [← hq]; exact hq2slash
      · intro c hc
        rw [hu]
        exact List.mem_append_right _ (List.mem_cons_of_mem ';' hc)
      · intro c hc
        rw [hu]
        exact List.mem_append_left _ hc
  | none =>
    simp only [hsl] at h
    have huslash : '/' ∉ u := splitLast_none_not_mem '/' u hsl
    cases hsf : splitFirst ';' u with
    | none =>
      simp only [hsf] at h
      rw [Prod.mk.injEq] at h
      obtain ⟨hp, hq⟩ := h
      subst hp hq
      refine ⟨⟨[], by rw [joinParams_nil, List.append_nil]⟩,
        fun hc => absurd rfl hc, ?_, List.not_mem_nil '/',
        fun c hc => absurd hc (List.not_mem_nil c), fun c hc => hc⟩
      rw [lastSeg_of_no_slash u huslash]
      exact splitFirst_none_not_mem ';' u hsf
    | some q =>
      simp only [hsf] at h
      rw [Prod.mk.injEq] at h
      obtain ⟨hp, hq⟩ := h
      obtain ⟨hueq, hsemiq1⟩ := splitFirst_sound ';' u q.1 q.2 (by rw [hsf])
      have hq1slash : '/' ∉ q.1 := fun hm =>
        huslash (by rw [hueq]; exact List.mem_append_left _ hm)
      have hq2slash : '/' ∉ q.2 := fun hm =>
        huslash (by rw [hueq]; exact List.mem_append_right _ (List.mem_cons_of_mem ';' hm))
      have hu : u = path ++ ';' :: params := by rw [hueq, hp, hq]
      refine ⟨?_, ?_, ?_, ?_, ?_, ?_⟩
      · by_cases hpe : params = []
        · exact ⟨[';'], by simp [hu, hpe, joinParams_nil]⟩
        · exact ⟨[], by rw [joinParams_of_ne path params hpe, List.append_nil, hu]⟩
      · intro hne
        rw [joinParams_of_ne path params hne, hu]
      · rw [← hp, lastSeg_of_no_slash q.1 hq1slash]
        exact hsemiq1
      · rw [← hq]; exact hq2slash
      · intro c hc
        rw [hu]
        exact List.mem_append_right _ (List.mem_cons_of_mem ';' hc)
      · intro c hc
        rw [hu]
        exact List.mem_append_left _ hc

theorem paramsPhase_facts (scheme u path params : List Char)
    (h : paramsPhase scheme u = (path, params)) :
    (∃ r, u = joinParams path params ++ r) ∧
    paramsPhase scheme (joinParams path params) = (path, params) ∧
    ((params ≠ [] ∨ (uses_params.contains scheme = true ∧ ';' ∈ path)) → ';' ∉ lastSeg path) ∧
    '/' ∉ params ∧
    (∀ c ∈ params, c ∈ u) ∧
    (∀ c ∈ path, c ∈ u) := by
  unfold paramsPhase at h
  by_cases hg : (uses_params.contains scheme && u.contains ';') = true
  · rw [if_pos hg] at h
    obtain ⟨⟨r, hr⟩, hjoin, hseg, hslash, hmp, hmp2⟩ := pySplitparams_facts u path params h
    refine ⟨⟨r, hr⟩, ?_, fun _ => hseg, hslash, hmp, hmp2⟩
    by_cases hpe : params = []
    · rw [hpe, joinParams_nil]
      unfold paramsPhase
      by_cases hg2 : (uses_params.contains scheme && path.contains ';') = true
      · rw [if_pos hg2, pySplitparams_of_seg_clean path hseg]
      · rw [if_neg hg2]
    · rw [hjoin hpe]
      unfold paramsPhase
      rw [if_pos hg]
      exact h
  · rw [if_neg hg] at h
    rw [Prod.mk.injEq] at h
    obtain ⟨hp, hq⟩ := h
    subst hp hq
    refine ⟨⟨[], by rw [joinParams_nil, List.append_nil]⟩, ?_, ?_, List.not_mem_nil '/',
      fun c hc => absurd hc (List.not_mem_nil c), fun c hc => hc⟩
    · rw [joinParams_nil]
      unfold paramsPhase
      rw [if_neg hg]
    · intro hyp
      rcases hyp with hne | ⟨huse, hsemi⟩
      · exact absurd rfl hne
      · exact absurd (by rw [Bool.and_eq_true]; exact ⟨huse, by simpa using hsemi⟩) hg

theorem paramsPhase_join_insert (scheme path params : List Char)
    (hseg : (params ≠ [] ∨ (uses_params.contains scheme = true ∧ ';' ∈ path)) →
      ';' ∉ lastSeg path)
    (hp : '/' ∉ params) :
    joinParams (paramsPhase scheme ('/' :: joinParams path params)).1
      (paramsPhase scheme ('/' :: joinParams path params)).2 =
      '/' :: joinParams path params := by
  by_cases hg : (uses_params.contains scheme &&
      ('/' :: joinParams path params).contains ';') = true
  · have hpp : paramsPhase scheme ('/' :: joinParams path params) =
        pySplitparams ('/' :: joinParams path params) := by
      unfold paramsPhase
      rw [if_pos hg]
    by_cases hpe : params = []
    · have hand := hg
      rw [Bool.and_eq_true] at hand
      obtain ⟨huse, hsw⟩ := hand
      have hsemipath : (';' : Char) ∈ path := by
        have hmem : (';' : Char) ∈ '/' :: joinParams path params := by simpa using hsw
        rw [hpe, joinParams_nil] at hmem
        rcases List.mem_cons.mp hmem with h1 | h2
        · exact absurd h1 (by decide)
        · exact h2
      have hseg2 : ';' ∉ lastSeg path := hseg (Or.inr ⟨huse, hsemipath⟩)
      have hkey : pySplitparams ('/' :: joinParams path params) =
          ('/' :: joinParams path params, []) := by
        apply pySplitparams_of_seg_clean
        rw [hpe, joinParams_nil, lastSeg_cons_slash]
        exact hseg2
      rw [hpp, hkey, joinParams_nil]
    · have hseg2 : ';' ∉ lastSeg path := hseg (Or.inl hpe)
      have hjoin : joinParams path params = path ++ ';' :: params :=
        joinParams_of_ne path params hpe
      have hsemicolon_ne_slash : (';' : Char) ≠ '/' := by decide
      have hkey : pySplitparams ('/' :: joinParams path params) = ('/' :: path, params) := by
        cases hslp : splitLast '/' path with
        | none =>
          have hns : '/' ∉ path := splitLast_none_not_mem '/' path hslp
          have hsp : ';' ∉ path := by
            rw [lastSeg_of_no_slash path hns] at hseg2
            exact hseg2
          have htail : '/' ∉ path ++ ';' :: params := by
            intro hm
            rcases List.mem_append.mp hm with h1 | h2
            · exact hns h1
            · rcases List.mem_cons.mp h2 with h3 | h4
              · exact absurd h3 (by decide)
              · exact hp h4
          have hw2 : '/' :: joinParams path params = [] ++ '/' :: (path ++ ';' :: params) := by
            rw [hjoin]
            rfl
          unfold pySplitparams
          rw [hw2]
          simp only [splitLast_append '/' [] _ htail]
          simp only [splitFirst_append ';' path params hsp]
          simp
        | some prp =>
          obtain ⟨hep, hnsp⟩ := splitLast_sound '/' path prp.1 prp.2 (by rw [hslp])
          have hseg3 : ';' ∉ prp.2 := by
            rw [lastSeg_of_splitLast path prp.1 prp.2 (by rw [hslp])] at hseg2
            exact hseg2
          have htail : '/' ∉ prp.2 ++ ';' :: params := by
            intro hm
            rcases List.mem_append.mp hm with h1 | h2
            · exact hnsp h1
            · rcases List.mem_cons.mp h2 with h3 | h4
              · exact absurd h3 (by decide)
              · exact hp h4
          have hw2 : '/' :: joinParams path params =
              ('/' :: prp.1) ++ '/' :: (prp.2 ++ ';' :: params) := by
            rw [hjoin, hep]
            simp
          unfold pySplitparams
          rw [hw2]
          simp only [splitLast_append '/' ('/' :: prp.1) _ htail]
          simp only [splitFirst_append ';' prp.2 params hseg3]
          rw [hep]
          simp
      rw [hpp, hkey, joinParams_of_ne _ params hpe, hjoin]
      rfl
  · have hpp : paramsPhase scheme ('/' :: joinParams path params) =
        ('/' :: joinParams path params, []) := by
      unfold paramsPhase
      rw [if_neg hg]
    rw [hpp, joinParams_nil]

theorem cleanURL_eq_self (u : List Char)
    (h1 : ∀ c ∈ u, isUnsafeURLByte c = false)
    (h2 : u = [] ∨ ∃ c cs, u = c :: cs ∧ isC0OrSpace c = false) :
    cleanURL u = u := by
  unfold cleanURL
  have hdrop : u.dropWhile isC0OrSpace = u := by
    rcases h2 with rfl | ⟨c, cs, hcc, hc⟩
    · rfl
    · rw [hcc, List.dropWhile_cons, hc]
      simp
  rw [hdrop]
  rw [List.filter_eq_self.mpr (fun c hc => by rw [h1 c hc]; rfl)]

theorem schemeCheckOK_false_of_mem (a : List Char) (ch : Char) (hm : ch ∈ a)
    (hbad : isSchemeChar ch = false) : schemeCheckOK a = false := by
  cases a with
  | nil => rfl
  | cons c t =>
    simp only [schemeCheckOK]
    cases hall : (c :: t).all isSchemeChar with
    | false => rw [Bool.and_false]
    | true =>
      rw [List.all_eq_true] at hall
      rw [hall ch hm] at hbad
      cases hbad

theorem splitScheme_of_scheme (scheme rest : List Char)
    (hchars : ∀ ch ∈ scheme, isSchemeChar ch = true)
    (hlower : scheme.map asciiLower = scheme)
    (hne : scheme ≠ [])
    (hhead : ∀ ch t, scheme = ch :: t → ch.isAlpha = true) :
    splitScheme (scheme ++ ':' :: rest) = (scheme, rest) := by
  unfold splitScheme
  have hnc : (':' : Char) ∉ scheme := fun hm => (schemeChar_ne ':' (hchars ':' hm)).1 rfl
  simp only [splitFirst_append ':' scheme rest hnc]
  have hok : schemeCheckOK scheme = true := by
    cases scheme with
    | nil => exact absurd rfl hne
    | cons c t =>
      unfold schemeCheckOK
      rw [Bool.and_eq_true]
      exact ⟨hhead c t rfl, by rw [List.all_eq_true]; exact fun x hx => hchars x hx⟩
  rw [if_pos hok, hlower]

theorem splitScheme_none (u : List Char)
    (h : noSchemeSplit u) : splitScheme u = ([], u) := by
  unfold splitScheme
  cases hf : splitFirst ':' u with
  | none => rfl
  | some p =>
    simp only [hf]
    rw [if_neg (by rw [h p.1 p.2 (by rw [hf])]; exact Bool.false_ne_true)]

theorem noSchemeSplit_of_append (w t : List Char) (h : noSchemeSplit (w ++ t)) :
    noSchemeSplit w :=
  fun a b hab => h a (b ++ t) (splitFirst_extend ':' w t a b hab)

theorem noSchemeSplit_append_hash (w f : List Char) (h : noSchemeSplit w) :
    noSchemeSplit (w ++ '#' :: f) := by
  intro a b hab
  cases hf : splitFirst ':' w with
  | some p =>
    rw [splitFirst_extend ':' w ('#' :: f) p.1 p.2 (by rw [hf]), Option.some.injEq,
      Prod.mk.injEq] at hab
    rw [← hab.1]
    exact h p.1 p.2 (by rw [hf])
  | none =>
    have hnm := splitFirst_none_not_mem ':' w hf
    rw [splitFirst_append_left ':' w ('#' :: f) hnm] at hab
    cases hg : splitFirst ':' ('#' :: f) with
    | none => rw [hg] at hab; cases hab
    | some q =>
      rw [hg] at hab
      simp only [Option.map_some', Option.some.injEq, Prod.mk.injEq] at hab
      obtain ⟨he, _⟩ := splitFirst_sound ':' ('#' :: f) q.1 q.2 (by rw [hg])
      have hq1 : ∃ xs, q.1 = '#' :: xs := by
        cases hq : q.1 with
        | nil =>
          rw [hq] at he
          simp only [List.nil_append] at he
          have h3 := congrArg List.head? he
          simp at h3
        | cons x xs =>
          rw [hq] at he
          have h2 : '#' = x := by
            have h3 := congrArg List.head? he
            simpa using h3
          exact ⟨xs, by rw [h2]⟩
      obtain ⟨xs, hxs⟩ := hq1
      have hhash : '#' ∈ a := by
        rw [← hab.1, hxs]
        exact List.mem_append_right _ (List.mem_cons_self '#' xs)
      exact schemeCheckOK_false_of_mem a '#' hhash (by decide)

theorem noSchemeSplit_nil : noSchemeSplit ([] : List Char) := by
  intro a b hab
  cases hab

theorem noSchemeSplit_of_head (x : Char) (t : List Char) (hx : x.isAlpha = false) :
    noSchemeSplit (x :: t) := by
  intro a b hab
  obtain ⟨he, _⟩ := splitFirst_sound ':' (x :: t) a b hab
  cases ha : a with
  | nil => rfl
  | cons y ys =>
    have hy : y = x := by
      rw [ha] at he
      have h3 := congrArg List.head? he
      simpa using h3.symm
    simp only [schemeCheckOK]
    rw [hy, hx, Bool.false_and]

theorem splitNetloc_of_double (nl r : List Char)
    (hnl : ∀ c ∈ nl, netlocDelim c = false)
    (hr : r = [] ∨ ∃ c cs, r = c :: cs ∧ netlocDelim c = true)
    (hbr : ((nl.contains '[' && ! nl.contains ']') ||
      (nl.contains ']' && ! nl.contains '[')) = false) :
    splitNetloc ('/' :: '/' :: (nl ++ r)) = .ok (nl, r) := by
  obtain ⟨ht, hd⟩ := span_append (fun c => ! netlocDelim c) nl r
    (fun c hc => by show (! netlocDelim c) = true; rw [hnl c hc]; rfl)
    (by
      rcases hr with rfl | ⟨c, cs, hcc, hc⟩
      · exact Or.inl rfl
      · exact Or.inr ⟨c, cs, hcc, by show (! netlocDelim c) = false; rw [hc]; rfl⟩)
  have hred : splitNetloc ('/' :: '/' :: (nl ++ r)) =
      (if (((nl ++ r).takeWhile (fun c => ! netlocDelim c)).contains '[' &&
            ! ((nl ++ r).takeWhile (fun c => ! netlocDelim c)).contains ']') ||
          (((nl ++ r).takeWhile (fun c => ! netlocDelim c)).contains ']' &&
            ! ((nl ++ r).takeWhile (fun c => ! netlocDelim c)).contains '[') then
        .error ()
      else .ok ((nl ++ r).takeWhile (fun c => ! netlocDelim c),
        (nl ++ r).dropWhile (fun c => ! netlocDelim c))) := rfl
  rw [hred, ht, hd, if_neg (by rw [hbr]; exact Bool.false_ne_true)]

theorem splitNetloc_sound (x nl r : List Char) (h : splitNetloc x = .ok (nl, r)) :
    ((nl.contains '[' && ! nl.contains ']') ||
      (nl.contains ']' && ! nl.contains '[')) = false ∧
    (∀ c ∈ nl, netlocDelim c = false) ∧
    ((nl = [] ∧ r = x) ∨
     (x = '/' :: '/' :: (nl ++ r) ∧
      (r = [] ∨ ∃ c cs, r = c :: cs ∧ netlocDelim c = true))) := by
  unfold splitNetloc at h
  split at h
  · rename_i rest
    by_cases hbr : (((rest.takeWhile (fun c => ! netlocDelim c)).contains '[' &&
        ! ((rest.takeWhile (fun c => ! netlocDelim c)).contains ']')) ||
        (((rest.takeWhile (fun c => ! netlocDelim c)).contains ']') &&
        ! ((rest.takeWhile (fun c => ! netlocDelim c)).contains '['))) = true
    · rw [if_pos hbr] at h
      cases h
    · rw [if_neg hbr] at h
      rw [Except.ok.injEq, Prod.mk.injEq] at h
      obtain ⟨hnl, hrr⟩ := h
      subst hnl hrr
      refine ⟨by simpa using hbr, fun c hc => ?_, Or.inr ⟨?_, ?_⟩⟩
      · have := mem_takeWhile_pred (fun c => ! netlocDelim c) rest c hc
        simpa using this
      · rw [List.takeWhile_append_dropWhile]
      · rcases dropWhile_cases (fun c => ! netlocDelim c) rest with h1 | ⟨c, cs, h2, h3⟩
        · exact Or.inl h1
        · exact Or.inr ⟨c, cs, h2, by simpa using h3⟩
  · rw [Except.ok.injEq, Prod.mk.injEq] at h
    obtain ⟨hnl, hrr⟩ := h
    subst hnl hrr
    exact ⟨rfl, fun c hc => absurd hc (List.not_mem_nil c), Or.inl ⟨rfl, rfl⟩⟩

theorem splitScheme_sound (u sch rest : List Char) (h : splitScheme u = (sch, rest)) :
    (sch = [] ∧ rest = u ∧ noSchemeSplit u) ∨
    (∃ pre, u = pre ++ ':' :: rest ∧ sch = pre.map asciiLower ∧
      schemeCheckOK pre = true ∧ ':' ∉ pre) := by
  unfold splitScheme at h
  cases hf : splitFirst ':' u with
  | none =>
    rw [hf] at h
    rw [Prod.mk.injEq] at h
    exact Or.inl ⟨h.1.symm, h.2.symm, fun a b hab => by rw [hab] at hf; cases hf⟩
  | some p =>
    simp only [hf] at h
    by_cases hok : schemeCheckOK p.1 = true
    · rw [if_pos hok] at h
      rw [Prod.mk.injEq] at h
      obtain ⟨he, hm⟩ := splitFirst_sound ':' u p.1 p.2 (by rw [hf])
      exact Or.inr ⟨p.1, by rw [← h.2]; exact he, h.1.symm, hok, hm⟩
    · rw [if_neg hok] at h
      rw [Prod.mk.injEq] at h
      refine Or.inl ⟨h.1.symm, h.2.symm, fun a b hab => ?_⟩
      rw [hf] at hab
      rw [Option.some.injEq, Prod.mk.injEq] at hab
      rw [← hab.1]
      simpa using hok

theorem splitFragment_sound (u a f : List Char) (h : splitFragment u = (a, f)) :
    '#' ∉ a ∧ (u = a ++ '#' :: f ∨ (a = u ∧ f = [])) := by
  unfold splitFragment at h
  cases hf : splitFirst '#' u with
  | none =>
    rw [hf] at h
    rw [Prod.mk.injEq] at h
    obtain ⟨h1, h2⟩ := h
    subst h1 h2
    exact ⟨splitFirst_none_not_mem '#' u hf, Or.inr ⟨rfl, rfl⟩⟩
  | some p =>
    rw [hf] at h
    rw [Prod.mk.injEq] at h
    obtain ⟨h1, h2⟩ := h
    subst h1 h2
    obtain ⟨he, hm⟩ := splitFirst_sound '#' u p.1 p.2 (by rw [hf])
    exact ⟨hm, Or.inl he⟩

theorem splitQuery_sound (u a q : List Char) (h : splitQuery u = (a, q)) :
    '?' ∉ a ∧ (u = a ++ '?' :: q ∨ (a = u ∧ q = [])) := by
  unfold splitQuery at h
  cases hf : splitFirst '?' u with
  | none =>
    rw [hf] at h
    rw [Prod.mk.injEq] at h
    obtain ⟨h1, h2⟩ := h
    subst h1 h2
    exact ⟨splitFirst_none_not_mem '?' u hf, Or.inr ⟨rfl, rfl⟩⟩
  | some p =>
    rw [hf] at h
    rw [Prod.mk.injEq] at h
    obtain ⟨h1, h2⟩ := h
    subst h1 h2
    obtain ⟨he, hm⟩ := splitFirst_sound '?' u p.1 p.2 (by rw [hf])
    exact ⟨hm, Or.inl he⟩

theorem cleanURL_facts (u0 : List Char) :
    (∀ c ∈ cleanURL u0, isUnsafeURLByte c = false) ∧
    (cleanURL u0 = [] ∨ ∃ c cs, cleanURL u0 = c :: cs ∧ isC0OrSpace c = false) := by
  unfold cleanURL
  constructor
  · intro c hc
    have := List.of_mem_filter hc
    simpa using this
  · rcases dropWhile_cases isC0OrSpace u0 with h1 | ⟨c, cs, h2, h3⟩
    · rw [h1]
      exact Or.inl rfl
    · rw [h2]
      have hcu : isUnsafeURLByte c = false := by
        cases hb : isUnsafeURLByte c with
        | false => rfl
        | true =>
          have h4 := (isUnsafeURLByte_iff c).mp hb
          have h5 : isC0OrSpace c = true := (isC0OrSpace_iff c).mpr (by omega)
          rw [h5] at h3
          cases h3
      rw [List.filter_cons, if_pos (by rw [hcu]; rfl)]
      exact Or.inr ⟨c, _, rfl, h3⟩

theorem path_prefix_of_u2 (u2 preh frag path query : List Char)
    (hF2 : u2 = preh ++ '#' :: frag ∨ (preh = u2 ∧ frag = []))
    (hQ2 : preh = path ++ '?' :: query ∨ (path = preh ∧ query = [])) :
    ∃ e, u2 = path ++ e := by
  rcases hQ2 with hq1 | ⟨hq1, _⟩
  · rcases hF2 with hf1 | ⟨hf1, _⟩
    · exact ⟨'?' :: query ++ '#' :: frag, by rw [hf1, hq1]; simp⟩
    · exact ⟨'?' :: query, by rw [← hf1, hq1]⟩
  · rcases hF2 with hf1 | ⟨hf1, _⟩
    · exact ⟨'#' :: frag, by rw [hf1, ← hq1]⟩
    · exact ⟨[], by rw [← hf1, ← hq1, List.append_nil]⟩

theorem path_head_slash (u2 preh frag path query : List Char)
    (hFm : '#' ∉ preh)
    (hF2 : u2 = preh ++ '#' :: frag ∨ (preh = u2 ∧ frag = []))
    (hQm : '?' ∉ path)
    (hQ2 : preh = path ++ '?' :: query ∨ (path = preh ∧ query = []))
    (hu2 : u2 = [] ∨ ∃ c cs, u2 = c :: cs ∧ netlocDelim c = true) :
    path = [] ∨ path.take 1 = ['/'] := by
  cases hpath : path with
  | nil => exact Or.inl rfl
  | cons pc pt =>
    right
    obtain ⟨e, he⟩ := path_prefix_of_u2 u2 preh frag path query hF2 hQ2
    rcases hu2 with h1 | ⟨c, cs, h2, h3⟩
    · rw [h1, hpath] at he
      cases he
    · rw [h2, hpath, List.cons_append] at he
      have hc : c = pc := by
        have h4 := congrArg List.head? he
        simpa using h4
    -- pc is a netloc delimiter but neither question mark nor hash
      have hmempath : pc ∈ path := by rw [hpath]; exact List.mem_cons_self pc pt
      have hmempreh : pc ∈ preh := by
        rcases hQ2 with hq1 | ⟨hq1, _⟩
        · rw [hq1]; exact List.mem_append_left _ hmempath
        · rw [← hq1]; exact hmempath
      have hne1 : pc ≠ '?' := fun hcc => hQm (hcc ▸ hmempath)
      have hne2 : pc ≠ '#' := fun hcc => hFm (hcc ▸ hmempreh)
      have hdelim := (netlocDelim_iff c).mp h3
      rw [hc] at hdelim
      have h63 : '?'.toNat = 63 := rfl
      have h35 : '#'.toNat = 35 := rfl
      have hn1 : pc.toNat ≠ 63 := fun hx =>
        hne1 ((char_eq_iff_toNat pc '?').mpr (by rw [hx, h63]))
      have hn2 : pc.toNat ≠ 35 := fun hx =>
        hne2 ((char_eq_iff_toNat pc '#').mpr (by rw [hx, h35]))
      have hslash : pc = '/' := (char_eq_iff_toNat pc '/').mpr (by
        have h47 : '/'.toNat = 47 := rfl
        rw [h47]
        omega)
      rw [hslash]
      rfl

theorem pyUrlsplit_sound (u0 : List Char) (s : SplitURL) (h : pyUrlsplit u0 = .ok s) :
    s.scheme.map asciiLower = s.scheme ∧
    (∀ ch ∈ s.scheme, isSchemeChar ch = true) ∧
    (∀ ch t, s.scheme = ch :: t → ch.isAlpha = true) ∧
    (∀ ch ∈ s.netloc, netlocDelim ch = false) ∧
    ((s.netloc.contains '[' && ! s.netloc.contains ']') ||
      (s.netloc.contains ']' && ! s.netloc.contains '[')) = false ∧
    '?' ∉ s.path ∧ '#' ∉ s.path ∧
    (s.netloc ≠ [] → s.path = [] ∨ s.path.take 1 = ['/']) ∧
    (s.scheme = [] → s.netloc = [] → s.path.take 1 ≠ ['/'] → noSchemeSplit s.path) ∧
    (∀ ch, (ch ∈ s.scheme ∨ ch ∈ s.netloc ∨ ch ∈ s.path ∨ ch ∈ s.fragment) →
      isUnsafeURLByte ch = false) ∧
    (s.scheme = [] → s.netloc = [] → ∀ ch t, s.path = ch :: t → isC0OrSpace ch = false) := by
  obtain ⟨hclean, hheadu⟩ := cleanURL_facts u0
  unfold pyUrlsplit at h
  cases hsn : splitNetloc (splitScheme (cleanURL u0)).2 with
  | error e =>
    simp only [hsn] at h
    exact Except.noConfusion h
  | ok p =>
    simp only [hsn] at h
    rw [Except.ok.injEq] at h
    subst h
    obtain ⟨hbr, hnlchars, hnlor⟩ :=
      splitNetloc_sound (splitScheme (cleanURL u0)).2 p.1 p.2 (by rw [hsn])
    obtain ⟨hFm, hF2⟩ := splitFragment_sound p.2 (splitFragment p.2).1 (splitFragment p.2).2 rfl
    obtain ⟨hQm, hQ2⟩ := splitQuery_sound (splitFragment p.2).1
      (splitQuery (splitFragment p.2).1).1 (splitQuery (splitFragment p.2).1).2 rfl
    have hSs := splitScheme_sound (cleanURL u0) (splitScheme (cleanURL u0)).1
      (splitScheme (cleanURL u0)).2 rfl
    set sch := (splitScheme (cleanURL u0)).1 with hschdef
    set u1 := (splitScheme (cleanURL u0)).2 with hu1def
    set preh := (splitFragment p.2).1 with hprehdef
    set frag := (splitFragment p.2).2 with hfragdef
    set path := (splitQuery preh).1 with hpathdef
    set query := (splitQuery preh).2 with hquerydef
    have hmem_path_preh : ∀ ch ∈ path, ch ∈ preh := by
      intro ch hc
      rcases hQ2 with hq1 | ⟨hq1, _⟩
      · rw [hq1]; exact List.mem_append_left _ hc
      · rw [← hq1]; exact hc
    have hmem_preh_u2 : ∀ ch ∈ preh, ch ∈ p.2 := by
      intro ch hc
      rcases hF2 with hf1 | ⟨hf1, _⟩
      · rw [hf1]; exact List.mem_append_left _ hc
      · rw [← hf1]; exact hc
    have hmem_frag_u2 : ∀ ch ∈ frag, ch ∈ p.2 := by
      intro ch hc
      rcases hF2 with hf1 | ⟨hf1, hf2⟩
      · rw [hf1]
        exact List.mem_append_right _ (List.mem_cons_of_mem '#' hc)
      · rw [hf2] at hc
        exact absurd hc (List.not_mem_nil ch)
    have hmem_u2_u1 : ∀ ch ∈ p.2, ch ∈ u1 := by
      intro ch hc
      rcases hnlor with ⟨_, hr⟩ | ⟨hr, _⟩
      · rw [← hr]; exact hc
      · rw [hr]
        exact List.mem_cons_of_mem _ (List.mem_cons_of_mem _ (List.mem_append_right _ hc))
    have hmem_nl_u1 : ∀ ch ∈ p.1, ch ∈ u1 := by
      intro ch hc
      rcases hnlor with ⟨hnle, _⟩ | ⟨hr, _⟩
      · rw [hnle] at hc
        exact absurd hc (List.not_mem_nil ch)
      · rw [hr]
        exact List.mem_cons_of_mem _ (List.mem_cons_of_mem _ (List.mem_append_left _ hc))
    have hmem_u1_u : ∀ ch ∈ u1, ch ∈ cleanURL u0 := by
      intro ch hc
      rcases hSs with ⟨_, hrest, _⟩ | ⟨pre, hu, _, _, _⟩
      · rw [← hrest]; exact hc
      · rw [hu]
        exact List.mem_append_right _ (List.mem_cons_of_mem ':' hc)
    refine ⟨?_, ?_, ?_, hnlchars, hbr, hQm, ?_, ?_, ?_, ?_, ?_⟩
    · rcases hSs with ⟨hse, _, _⟩ | ⟨pre, _, hsm, _, _⟩
      · rw [hse]; rfl
      · rw [hsm, List.map_map]
        exact List.map_congr_left (fun a _ => asciiLower_idem a)
    · intro ch hc
      rcases hSs with ⟨hse, _, _⟩ | ⟨pre, _, hsm, hok, _⟩
      · rw [hse] at hc
        exact absurd hc (List.not_mem_nil ch)
      · rw [hsm] at hc
        obtain ⟨ch0, hch0, hch⟩ := List.mem_map.mp hc
        have hchars : ∀ x ∈ pre, isSchemeChar x = true := by
          cases pre with
          | nil => cases hok
          | cons c0 t0 =>
            have hok2 := hok
            simp only [schemeCheckOK] at hok2
            rw [Bool.and_eq_true, List.all_eq_true] at hok2
            exact hok2.2
        rw [← hch]
        exact asciiLower_schemeChar ch0 (hchars ch0 hch0)
    · intro ch t hch
      rcases hSs with ⟨hse, _, _⟩ | ⟨pre, _, hsm, hok, _⟩
      · rw [hse] at hch; cases hch
      · cases hpre : pre with
        | nil => rw [hpre] at hok; cases hok
        | cons c0 t0 =>
          rw [hpre] at hsm hok
          simp only [schemeCheckOK] at hok
          rw [Bool.and_eq_true] at hok
          rw [List.map_cons] at hsm
          rw [hsm] at hch
          rw [List.cons.injEq] at hch
          rw [← hch.1]
          exact asciiLower_alpha c0 hok.1
    · intro hmem
      exact hFm (hmem_path_preh '#' hmem)
    · intro hnl
      rcases hnlor with ⟨hnle, _⟩ | ⟨_, hu2⟩
      · exact absurd hnle hnl
      · exact path_head_slash p.2 preh frag path query hFm hF2 hQm hQ2 hu2
    · intro hse hne hp1
      rcases hnlor with ⟨_, hr⟩ | ⟨_, hu2⟩
      · -- u2 = u1 and scheme empty so u1 is the cleaned input
        rcases hSs with ⟨_, hrest, hnss⟩ | ⟨pre, _, hsm, hok, _⟩
        · obtain ⟨e1, he1⟩ := path_prefix_of_u2 p.2 preh frag path query hF2 hQ2
          have hpu : cleanURL u0 = path ++ e1 := by
            rw [← hrest, ← hr]
            exact he1
          exact noSchemeSplit_of_append path e1 (by rw [← hpu]; exact hnss)
        · exfalso
          cases hpre : pre with
          | nil => rw [hpre] at hok; cases hok
          | cons c0 t0 =>
            rw [hpre] at hsm
            rw [List.map_cons] at hsm
            rw [hsm] at hse
            cases hse
      · rcases path_head_slash p.2 preh frag path query hFm hF2 hQm hQ2 hu2 with h1 | h1
        · rw [h1]
          exact noSchemeSplit_nil
        · exact absurd h1 hp1
    · intro ch hch
      rcases hch with h1 | h1 | h1 | h1
      · rcases hSs with ⟨hse, _, _⟩ | ⟨pre, hu, hsm, _, _⟩
        · rw [hse] at h1
          exact absurd h1 (List.not_mem_nil ch)
        · rw [hsm] at h1
          obtain ⟨ch0, hch0, hch2⟩ := List.mem_map.mp h1
          have hch0u : ch0 ∈ cleanURL u0 := by
            rw [hu]
            exact List.mem_append_left _ hch0
          rw [← hch2]
          exact asciiLower_safe ch0 (hclean ch0 hch0u)
      · exact hclean ch (hmem_u1_u ch (hmem_nl_u1 ch h1))
      · exact hclean ch (hmem_u1_u ch (hmem_u2_u1 ch (hmem_preh_u2 ch (hmem_path_preh ch h1))))
      · exact hclean ch (hmem_u1_u ch (hmem_u2_u1 ch (hmem_frag_u2 ch h1)))
    · intro hse hne ch t hch
      rcases hnlor with ⟨_, hr⟩ | ⟨_, hu2⟩
      · rcases hSs with ⟨_, hrest, _⟩ | ⟨pre, _, hsm, hok, _⟩
        · obtain ⟨e1, he1⟩ := path_prefix_of_u2 p.2 preh frag path query hF2 hQ2
          have hpu : cleanURL u0 = ch :: (t ++ e1) := by
            have hch2 : path = ch :: t := hch
            rw [← hrest, ← hr, he1, hch2]
            rfl
          rcases hheadu with h1 | ⟨c2, cs2, h2, h3⟩
          · rw [h1] at hpu; cases hpu
          · rw [h2] at hpu
            rw [List.cons.injEq] at hpu
            rw [← hpu.1]
            exact h3
        · exfalso
          cases hpre : pre with
          | nil => rw [hpre] at hok; cases hok
          | cons c0 t0 =>
            rw [hpre] at hsm
            rw [List.map_cons] at hsm
            rw [hsm] at hse
            cases hse
      · rcases path_head_slash p.2 preh frag path query hFm hF2 hQm hQ2 hu2 with h1 | h1
        · have hch2 : path = ch :: t := hch
          rw [h1] at hch2
          cases hch2
        · have hch2 : path = ch :: t := hch
          rw [hch2] at h1
          have hc2 : ch = '/' := by
            have h4 := congrArg List.head? h1
            simpa using h4
          rw [hc2]
          rfl

theorem pyUrlparse_wf (u0 : List Char) (c : URLComponents) (h : pyUrlparse u0 = .ok c) :
    ParsedWf { c with query := [] } := by
  unfold pyUrlparse at h
  cases hs : pyUrlsplit u0 with
  | error e =>
    simp only [hs] at h
    exact Except.noConfusion h
  | ok s =>
    simp only [hs] at h
    rw [Except.ok.injEq] at h
    subst h
    obtain ⟨hSlow, hSchars, hShead, hNchars, hNbr, hQm, hHm, hNpath, hNoS, hClean, hHead⟩ :=
      pyUrlsplit_sound u0 s hs
    obtain ⟨⟨r, hr⟩, hps, hseg, hpslash, hmp, hmp2⟩ :=
      paramsPhase_facts s.scheme s.path (paramsPhase s.scheme s.path).1
        (paramsPhase s.scheme s.path).2 rfl
    set P := (paramsPhase s.scheme s.path).1 with hPdef
    set A := (paramsPhase s.scheme s.path).2 with hAdef
    refine ⟨hSlow, hSchars, hShead, hNchars, hNbr, ?_, ?_, hps, hseg, ?_, ?_, ?_, ?_⟩
    · exact ⟨fun hm => hQm (hmp2 '?' hm), fun hm => hHm (hmp2 '#' hm)⟩
    · exact ⟨fun hm => hQm (hmp '?' hm), fun hm => hHm (hmp '#' hm), hpslash⟩
    · intro hne
      have hne2 : s.netloc ≠ [] := hne
      rcases hNpath hne2 with h1 | h1
      · left
        show joinParams P A = []
        rw [h1] at hr
        exact (List.append_eq_nil.mp hr.symm).1
      · cases hj : joinParams P A with
        | nil => exact Or.inl rfl
        | cons x xs =>
          right
          rw [hj] at hr
          have h2 : List.take 1 ((x :: xs) ++ r) = ['/'] := by rw [← hr]; exact h1
          have hx : x = '/' := by
            have h4 : [x] = ['/'] := h2
            injection h4
          rw [hx]
          rfl
    · intro hs0 hn0 htake
      have hs0b : s.scheme = [] := hs0
      have hn0b : s.netloc = [] := hn0
      have htake2 : (joinParams P A).take 1 ≠ ['/'] := htake
      show noSchemeSplit (joinParams P A)
      cases hj : joinParams P A with
      | nil => exact noSchemeSplit_nil
      | cons x xs =>
        have hsp : s.path = (x :: xs) ++ r := by rw [hr, hj]
        have hptake : List.take 1 s.path ≠ ['/'] := by
          intro hx
          apply htake2
          rw [hj]
          rw [hsp] at hx
          have hx2 : x = '/' := by
            have h4 : [x] = ['/'] := hx
            injection h4
          rw [hx2]
          rfl
        have hns2 : noSchemeSplit ((x :: xs) ++ r) := by
          rw [← hsp]
          exact hNoS hs0b hn0b hptake
        exact noSchemeSplit_of_append (x :: xs) r hns2
    · intro ch hch
      rcases hch with h1 | h1 | h1 | h1 | h1
      · exact hClean ch (Or.inl h1)
      · exact hClean ch (Or.inr (Or.inl h1))
      · exact hClean ch (Or.inr (Or.inr (Or.inl (hmp2 ch h1))))
      · exact hClean ch (Or.inr (Or.inr (Or.inl (hmp ch h1))))
      · exact hClean ch (Or.inr (Or.inr (Or.inr h1)))
    · intro hs0 hn0 ch t hj
      have hj2 : joinParams P A = ch :: t := hj
      rw [hj2] at hr
      exact hHead hs0 hn0 ch (t ++ r) (by rw [hr]; rfl)

theorem splitNetloc_not_double (u : List Char) (h : u.take 2 ≠ ['/', '/']) :
    splitNetloc u = .ok ([], u) := by
  unfold splitNetloc
  split
  · exact absurd rfl h
  · rfl

theorem take_one_slash (J : List Char) (h : J.take 1 = ['/']) : ∃ t, J = '/' :: t := by
  cases J with
  | nil => exact absurd h (by decide)
  | cons x xs =>
    have h4 : [x] = ['/'] := h
    have hx : x = '/' := by injection h4
    exact ⟨xs, by rw [hx]⟩

theorem splitFragment_tail (J F ft : List Char) (hJh : '#' ∉ J)
    (hft : (F = [] ∧ ft = []) ∨ ft = '#' :: F) :
    splitFragment (J ++ ft) = (J, F) := by
  rcases hft with ⟨hFe, hfte⟩ | hftc
  · rw [hfte, List.append_nil, hFe]
    unfold splitFragment
    rw [splitFirst_of_not_mem '#' J hJh]
  · rw [hftc]
    unfold splitFragment
    rw [splitFirst_append '#' J F hJh]

theorem take2_append_tail (J ft : List Char)
    (hJ2 : J.take 2 ≠ ['/', '/'])
    (hft : ft = [] ∨ ∃ g, ft = '#' :: g) :
    (J ++ ft).take 2 ≠ ['/', '/'] := by
  cases J with
  | nil =>
    rcases hft with hfe | ⟨g, hg⟩
    · rw [hfe]
      decide
    · rw [hg, List.nil_append]
      intro hc
      have hc2 : '#' :: List.take 1 g = ['/', '/'] := hc
      injection hc2 with h1 h2
      exact absurd h1 (by decide)
  | cons x xs =>
    cases xs with
    | nil =>
      intro hc
      have hc2 : x :: List.take 1 ft = ['/', '/'] := hc
      injection hc2 with h1 h2
      subst h1
      rcases hft with hfe | ⟨g, hg⟩
      · rw [hfe] at h2
        exact absurd h2 (by decide)
      · rw [hg] at h2
        have h3 : '#' :: List.take 0 g = ['/'] := h2
        injection h3 with h4 h5
        exact absurd h4 (by decide)
    | cons y ys =>
      intro hc
      have hc2 : [x, y] = ['/', '/'] := hc
      exact hJ2 hc2

theorem joinParams_mem (P A : List Char) (x : Char) (hx : x ∈ joinParams P A) :
    x ∈ P ∨ x ∈ A ∨ x = ';' := by
  unfold joinParams at hx
  split at hx
  · exact Or.inl hx
  · rcases List.mem_append.mp hx with h | h
    · exact Or.inl h
    · rcases List.mem_cons.mp h with h2 | h2
      · exact Or.inr (Or.inr h2)
      · exact Or.inr (Or.inl h2)

theorem not_mem_joinParams (P A : List Char) (x : Char)
    (hP : x ∉ P) (hA : x ∉ A) (hsemi : x ≠ ';') : x ∉ joinParams P A := by
  intro hx
  rcases joinParams_mem P A x hx with h | h | h
  · exact hP h
  · exact hA h
  · exact hsemi h

theorem mem_ite_list {c : Prop} [Decidable c] (a b : List Char) (ch : Char)
    (h : ch ∈ (if c then a else b)) : ch ∈ a ∨ ch ∈ b := by
  split at h
  · exact Or.inl h
  · exact Or.inr h

theorem mem_append_cons (a b : List Char) (d ch : Char) (h : ch ∈ a ++ d :: b) :
    ch ∈ a ∨ ch = d ∨ ch ∈ b := by
  rcases List.mem_append.mp h with h | h
  · exact Or.inl h
  · rcases List.mem_cons.mp h with h | h
    · exact Or.inr (Or.inl h)
    · exact Or.inr (Or.inr h)

theorem mem_ite_append_cons {c : Prop} [Decidable c] (w b : List Char) (d ch : Char)
    (h : ch ∈ (if c then w ++ d :: b else w)) : ch ∈ w ∨ ch = d ∨ ch ∈ b := by
  rcases mem_ite_list _ _ ch h with h | h
  · exact mem_append_cons w b d ch h
  · exact Or.inl h

theorem mem_ite_scheme {c : Prop} [Decidable c] (S w : List Char) (ch : Char)
    (h : ch ∈ (if c then S ++ ':' :: w else w)) : ch ∈ S ∨ ch = ':' ∨ ch ∈ w := by
  rcases mem_ite_list _ _ ch h with h | h
  · exact mem_append_cons S w ':' ch h
  · exact Or.inr (Or.inr h)

theorem mem_ite_netloc {c : Prop} [Decidable c] (N X U : List Char) (ch : Char)
    (h : ch ∈ (if c then '/' :: '/' :: (N ++ X) else U)) :
    ch = '/' ∨ ch ∈ N ∨ ch ∈ X ∨ ch ∈ U := by
  rcases mem_ite_list _ _ ch h with h | h
  · rcases List.mem_cons.mp h with h | h
    · exact Or.inl h
    · rcases List.mem_cons.mp h with h | h
      · exact Or.inl h
      · rcases List.mem_append.mp h with h | h
        · exact Or.inr (Or.inl h)
        · exact Or.inr (Or.inr (Or.inl h))
  · exact Or.inr (Or.inr (Or.inr h))

theorem mem_ite_slash {c : Prop} [Decidable c] (U : List Char) (ch : Char)
    (h : ch ∈ (if c then '/' :: U else U)) : ch = '/' ∨ ch ∈ U := by
  rcases mem_ite_list _ _ ch h with h | h
  · rcases List.mem_cons.mp h with h | h
    · exact Or.inl h
    · exact Or.inr h
  · exact Or.inr h

theorem pyUrlunsplit_mem (S N U Q F : List Char) (ch : Char)
    (h : ch ∈ pyUrlunsplit S N U Q F) :
    ch ∈ S ∨ ch ∈ N ∨ ch ∈ U ∨ ch ∈ Q ∨ ch ∈ F ∨
      ch = ':' ∨ ch = '/' ∨ ch = '?' ∨ ch = '#' := by
  simp only [pyUrlunsplit] at h
  rcases mem_ite_append_cons _ _ _ ch h with h | h | h
  · rcases mem_ite_append_cons _ _ _ ch h with h | h | h
    · rcases mem_ite_scheme _ _ ch h with h | h | h
      · tauto
      · tauto
      · rcases mem_ite_netloc _ _ _ ch h with h | h | h | h
        · tauto
        · tauto
        · rcases mem_ite_slash _ ch h with h | h
          · tauto
          · tauto
        · tauto
    · tauto
    · tauto
  · tauto
  · tauto

theorem pyUrlparse_build (v S rest N rest2 J F P A : List Char)
    (hcleanv : cleanURL v = v)
    (hss : splitScheme v = (S, rest))
    (hsn : splitNetloc rest = .ok (N, rest2))
    (hsf : splitFragment rest2 = (J, F))
    (hsq : splitQuery J = (J, []))
    (hpp : paramsPhase S J = (P, A)) :
    pyUrlparse v = .ok ⟨S, N, P, A, [], F⟩ := by
  have hsplit : pyUrlsplit v = .ok ⟨S, N, J, [], F⟩ := by
    unfold pyUrlsplit
    simp only [hcleanv, hss, hsn, hsf, hsq]
  unfold pyUrlparse
  simp only [hsplit, hpp]

theorem clear_query_eq (c : URLComponents) (h : c.query = []) :
    { c with query := [] } = c := by
  obtain ⟨S, N, P, A, Q, F⟩ := c
  have h2 : Q = [] := h
  subst h2
  rfl

theorem pyUrlsplit_tail_ok (N J F ft rest : List Char)
    (hnchars : ∀ ch ∈ N, netlocDelim ch = false)
    (hnbr : ((N.contains '[' && ! N.contains ']') ||
      (N.contains ']' && ! N.contains '[')) = false)
    (hJh : '#' ∉ J) (hJq : '?' ∉ J)
    (hft : (F = [] ∧ ft = []) ∨ ft = '#' :: F)
    (hrest : (rest = ('/' :: '/' :: (N ++ J)) ++ ft ∧ (J = [] ∨ J.take 1 = ['/']))
           ∨ (rest = J ++ ft ∧ N = [] ∧ J.take 2 ≠ ['/', '/'])) :
    splitNetloc rest = .ok (N, J ++ ft) ∧
    splitFragment (J ++ ft) = (J, F) ∧
    splitQuery J = (J, []) := by
  refine ⟨?_, splitFragment_tail J F ft hJh hft, ?_⟩
  · rcases hrest with ⟨hr, hnice⟩ | ⟨hr, hN, hJ2⟩
    · rw [hr]
      have he : ('/' :: '/' :: (N ++ J)) ++ ft = '/' :: '/' :: (N ++ (J ++ ft)) := by
        simp
      rw [he]
      refine splitNetloc_of_double N (J ++ ft) hnchars ?_ hnbr
      rcases hnice with hJe | hJ1
      · subst hJe
        rcases hft with ⟨hFe, hfte⟩ | hftc
        · rw [List.nil_append, hfte]
          exact Or.inl rfl
        · rw [List.nil_append, hftc]
          exact Or.inr ⟨'#', F, rfl, by decide⟩
      · obtain ⟨t, ht⟩ := take_one_slash J hJ1
        subst ht
        exact Or.inr ⟨'/', t ++ ft, rfl, by decide⟩
    · rw [hr, hN]
      refine splitNetloc_not_double (J ++ ft) (take2_append_tail J ft hJ2 ?_)
      rcases hft with ⟨h1, hfte⟩ | hftc
      · exact Or.inl hfte
      · exact Or.inr ⟨F, hftc⟩
  · unfold splitQuery
    rw [splitFirst_of_not_mem '?' J hJq]

theorem slash_insert_if (J : List Char) (hJnice : J = [] ∨ J.take 1 = ['/']) :
    (if (!J.isEmpty && decide (J.take 1 ≠ ['/'])) = true then '/' :: J else J) = J := by
  rcases hJnice with hJe | hJ1
  · rw [hJe]
    rfl
  · obtain ⟨t, ht⟩ := take_one_slash J hJ1
    rw [ht]
    rfl

theorem parse_unparse_exact (c : URLComponents) (hwf : ParsedWf c) (hq : c.query = [])
    (hcond : exactRoundTripCond c) :
    pyUrlparse (pyUrlunparse c) = .ok c := by
  obtain ⟨S, N, P, A, Q, F⟩ := c
  have hq2 : Q = [] := hq
  subst hq2
  have hlow : S.map asciiLower = S := hwf.scheme_lower
  have hchars : ∀ ch ∈ S, isSchemeChar ch = true := hwf.scheme_chars
  have hhead : ∀ ch t, S = ch :: t → ch.isAlpha = true := hwf.scheme_head
  have hnchars : ∀ ch ∈ N, netlocDelim ch = false := hwf.netloc_chars
  have hnbr : ((N.contains '[' && ! N.contains ']') ||
      (N.contains ']' && ! N.contains '[')) = false := hwf.netloc_brackets
  have hPq : '?' ∉ P := hwf.path_chars.1
  have hPh : '#' ∉ P := hwf.path_chars.2
  have hAq : '?' ∉ A := hwf.params_chars.1
  have hAh : '#' ∉ A := hwf.params_chars.2.1
  have hpp : paramsPhase S (joinParams P A) = (P, A) := hwf.params_split
  have hnp : N ≠ [] → joinParams P A = [] ∨ (joinParams P A).take 1 = ['/'] :=
    hwf.netloc_path
  have hnos : S = [] → N = [] → (joinParams P A).take 1 ≠ ['/'] →
      noSchemeSplit (joinParams P A) := hwf.no_scheme
  have hcl : ∀ ch, (ch ∈ S ∨ ch ∈ N ∨ ch ∈ P ∨ ch ∈ A ∨ ch ∈ F) →
      isUnsafeURLByte ch = false := hwf.clean_chars
  have hhc : S = [] → N = [] → ∀ ch t, joinParams P A = ch :: t →
      isC0OrSpace ch = false := hwf.head_clean
  have hcondU : N ≠ [] ∨ ((joinParams P A).take 2 ≠ ['/', '/'] ∧
      ¬(S ≠ [] ∧ uses_netloc.contains S = true ∧ joinParams P A ≠ [] ∧
        (joinParams P A).take 1 ≠ ['/'])) := hcond
  obtain ⟨J, hJdef⟩ : ∃ J, joinParams P A = J := ⟨_, rfl⟩
  rw [hJdef] at hpp hnp hnos hhc hcondU
  have hJq : '?' ∉ J := by
    rw [← hJdef]
    exact not_mem_joinParams P A '?' hPq hAq (by decide)
  have hJh : '#' ∉ J := by
    rw [← hJdef]
    exact not_mem_joinParams P A '#' hPh hAh (by decide)
  have hsafe : ∀ ch ∈ pyUrlunsplit S N J [] F, isUnsafeURLByte ch = false := by
    intro ch hch
    rcases pyUrlunsplit_mem S N J [] F ch hch with h | h | h | h | h | h | h | h | h
    · exact hcl ch (Or.inl h)
    · exact hcl ch (Or.inr (Or.inl h))
    · rw [← hJdef] at h
      rcases joinParams_mem P A ch h with h2 | h2 | h2
      · exact hcl ch (Or.inr (Or.inr (Or.inl h2)))
      · exact hcl ch (Or.inr (Or.inr (Or.inr (Or.inl h2))))
      · rw [h2]; decide
    · exact absurd h (List.not_mem_nil ch)
    · exact hcl ch (Or.inr (Or.inr (Or.inr (Or.inr h))))
    · rw [h]; decide
    · rw [h]; decide
    · rw [h]; decide
    · rw [h]; decide
  obtain ⟨ft, hft⟩ : ∃ ft, (F = [] ∧ ft = []) ∨ (F ≠ [] ∧ ft = '#' :: F) := by
    by_cases hF : F = []
    · exact ⟨[], Or.inl ⟨hF, rfl⟩⟩
    · exact ⟨'#' :: F, Or.inr ⟨hF, rfl⟩⟩
  have hft2 : (F = [] ∧ ft = []) ∨ ft = '#' :: F := by
    rcases hft with ⟨a, b⟩ | ⟨a, b⟩
    · exact Or.inl ⟨a, b⟩
    · exact Or.inr b
  have hfrag : ∀ w : List Char,
      (if (!F.isEmpty) = true then w ++ '#' :: F else w) = w ++ ft := by
    intro w
    rcases hft with ⟨hFe, hfte⟩ | ⟨hFne, hftc⟩
    · rw [hFe, hfte, List.append_nil]
      rfl
    · cases F with
      | nil => exact absurd rfl hFne
      | cons f fs =>
        rw [hftc]
        rfl
  show pyUrlparse (pyUrlunsplit S N (joinParams P A) [] F) =
    Except.ok ⟨S, N, P, A, [], F⟩
  rw [hJdef]
  cases N with
  | cons n0 N' =>
    have hJnice : J = [] ∨ J.take 1 = ['/'] := hnp (by intro hx; cases hx)
    cases S with
    | nil =>
      have hv : pyUrlunsplit [] (n0 :: N') J [] F =
          ('/' :: '/' :: ((n0 :: N') ++ J)) ++ ft := by
        simp only [pyUrlunsplit]
        rw [slash_insert_if J hJnice, hfrag]
        rfl
      rw [hv]
      obtain ⟨hsn, hsf, hsq⟩ := pyUrlsplit_tail_ok (n0 :: N') J F ft
        (('/' :: '/' :: ((n0 :: N') ++ J)) ++ ft) hnchars hnbr hJh hJq hft2
        (Or.inl ⟨rfl, hJnice⟩)
      refine pyUrlparse_build _ [] (('/' :: '/' :: ((n0 :: N') ++ J)) ++ ft)
        (n0 :: N') (J ++ ft) J F P A ?_ ?_ hsn hsf hsq hpp
      · refine cleanURL_eq_self _ (fun ch hch => by rw [← hv] at hch; exact hsafe ch hch) ?_
        right
        exact ⟨'/', ('/' :: ((n0 :: N') ++ J)) ++ ft, rfl, by decide⟩
      · refine splitScheme_none _ ?_
        exact noSchemeSplit_of_head '/' (('/' :: ((n0 :: N') ++ J)) ++ ft) (by decide)
    | cons s0 S' =>
      have hv : pyUrlunsplit (s0 :: S') (n0 :: N') J [] F =
          ((s0 :: S') ++ ':' :: ('/' :: '/' :: ((n0 :: N') ++ J))) ++ ft := by
        simp only [pyUrlunsplit]
        rw [slash_insert_if J hJnice, hfrag]
        rfl
      have hv2 : ((s0 :: S') ++ ':' :: ('/' :: '/' :: ((n0 :: N') ++ J))) ++ ft =
          (s0 :: S') ++ ':' :: (('/' :: '/' :: ((n0 :: N') ++ J)) ++ ft) := by
        simp
      rw [hv, hv2]
      obtain ⟨hsn, hsf, hsq⟩ := pyUrlsplit_tail_ok (n0 :: N') J F ft
        (('/' :: '/' :: ((n0 :: N') ++ J)) ++ ft) hnchars hnbr hJh hJq hft2
        (Or.inl ⟨rfl, hJnice⟩)
      refine pyUrlparse_build _ (s0 :: S') (('/' :: '/' :: ((n0 :: N') ++ J)) ++ ft)
        (n0 :: N') (J ++ ft) J F P A ?_ ?_ hsn hsf hsq hpp
      · refine cleanURL_eq_self _
          (fun ch hch => by rw [← hv2, ← hv] at hch; exact hsafe ch hch) ?_
        right
        exact ⟨s0, S' ++ ':' :: (('/' :: '/' :: ((n0 :: N') ++ J)) ++ ft), rfl,
          alpha_not_c0 s0 (hhead s0 S' rfl)⟩
      · exact splitScheme_of_scheme (s0 :: S') _ hchars hlow (by intro hx; cases hx) hhead
  | nil =>
    rcases hcondU with hNe | ⟨hJ2, hnins⟩
    · exact absurd rfl hNe
    · cases S with
      | nil =>
        have hv : pyUrlunsplit [] [] J [] F = J ++ ft := by
          simp only [pyUrlunsplit]
          rw [hfrag]
          rfl
        rw [hv]
        obtain ⟨hsn, hsf, hsq⟩ := pyUrlsplit_tail_ok [] J F ft (J ++ ft)
          hnchars hnbr hJh hJq hft2 (Or.inr ⟨rfl, rfl, hJ2⟩)
        refine pyUrlparse_build _ [] (J ++ ft) [] (J ++ ft) J F P A ?_ ?_ hsn hsf hsq hpp
        · refine cleanURL_eq_self _
            (fun ch hch => by rw [← hv] at hch; exact hsafe ch hch) ?_
          by_cases hJel : J = []
          · subst hJel
            rcases hft with ⟨hFe, hfte⟩ | ⟨hFne, hftc⟩
            · subst hfte
              exact Or.inl rfl
            · right
              rw [hftc]
              exact ⟨'#', F, rfl, by decide⟩
          · obtain ⟨x, xs, hxs⟩ : ∃ x xs, J = x :: xs := by
              cases J with
              | nil => exact absurd rfl hJel
              | cons a b => exact ⟨a, b, rfl⟩
            right
            refine ⟨x, xs ++ ft, by rw [hxs]; rfl, ?_⟩
            exact hhc rfl rfl x xs hxs
        · refine splitScheme_none _ ?_
          by_cases hJ1 : J.take 1 = ['/']
          · obtain ⟨t, ht⟩ := take_one_slash J hJ1
            rw [ht]
            exact noSchemeSplit_of_head '/' (t ++ ft) (by decide)
          · have hns := hnos rfl rfl hJ1
            rcases hft with ⟨hFe, hfte⟩ | ⟨hFne, hftc⟩
            · rw [hfte, List.append_nil]
              exact hns
            · rw [hftc]
              exact noSchemeSplit_append_hash J F hns
      | cons s0 S' =>
        have hSne : (s0 :: S') ≠ [] := by intro hx; cases hx
        by_cases hcont : uses_netloc.contains (s0 :: S') = true
        · have hJnice : J = [] ∨ J.take 1 = ['/'] := by
            by_cases hJe : J = []
            · exact Or.inl hJe
            · by_cases ht1 : J.take 1 = ['/']
              · exact Or.inr ht1
              · exact absurd ⟨hSne, hcont, hJe, ht1⟩ hnins
          have hC1 : ((!(s0 :: S').isEmpty && uses_netloc.contains (s0 :: S')) &&
              decide (J.take 2 ≠ ['/', '/'])) = true := by
            rw [hcont, decide_eq_true hJ2]
            rfl
          have hv : pyUrlunsplit (s0 :: S') [] J [] F =
              ((s0 :: S') ++ ':' :: ('/' :: '/' :: ([] ++ J))) ++ ft := by
            simp only [pyUrlunsplit]
            rw [hC1, slash_insert_if J hJnice, hfrag]
            rfl
          have hv2 : ((s0 :: S') ++ ':' :: ('/' :: '/' :: ([] ++ J))) ++ ft =
              (s0 :: S') ++ ':' :: (('/' :: '/' :: ([] ++ J)) ++ ft) := by
            simp
          rw [hv, hv2]
          obtain ⟨hsn, hsf, hsq⟩ := pyUrlsplit_tail_ok [] J F ft
            (('/' :: '/' :: ([] ++ J)) ++ ft) hnchars hnbr hJh hJq hft2
            (Or.inl ⟨rfl, hJnice⟩)
          refine pyUrlparse_build _ (s0 :: S') (('/' :: '/' :: ([] ++ J)) ++ ft)
            [] (J ++ ft) J F P A ?_ ?_ hsn hsf hsq hpp
          · refine cleanURL_eq_self _
              (fun ch hch => by rw [← hv2, ← hv] at hch; exact hsafe ch hch) ?_
            right
            exact ⟨s0, S' ++ ':' :: (('/' :: '/' :: ([] ++ J)) ++ ft), rfl,
              alpha_not_c0 s0 (hhead s0 S' rfl)⟩
          · exact splitScheme_of_scheme (s0 :: S') _ hchars hlow hSne hhead
        · have hcontf : uses_netloc.contains (s0 :: S') = false := by
            cases h : uses_netloc.contains (s0 :: S') with
            | false => rfl
            | true => exact absurd h hcont
          have hC1 : ((!(s0 :: S').isEmpty && uses_netloc.contains (s0 :: S')) &&
              decide (J.take 2 ≠ ['/', '/'])) = false := by
            rw [hcontf]
            rfl
          have hv : pyUrlunsplit (s0 :: S') [] J [] F = ((s0 :: S') ++ ':' :: J) ++ ft := by
            simp only [pyUrlunsplit]
            rw [hC1, hfrag]
            rfl
          have hv2 : ((s0 :: S') ++ ':' :: J) ++ ft = (s0 :: S') ++ ':' :: (J ++ ft) := by
            simp
          rw [hv, hv2]
          obtain ⟨hsn, hsf, hsq⟩ := pyUrlsplit_tail_ok [] J F ft (J ++ ft)
            hnchars hnbr hJh hJq hft2 (Or.inr ⟨rfl, rfl, hJ2⟩)
          refine pyUrlparse_build _ (s0 :: S') (J ++ ft) [] (J ++ ft) J F P A ?_ ?_
            hsn hsf hsq hpp
          · refine cleanURL_eq_self _
              (fun ch hch => by rw [← hv2, ← hv] at hch; exact hsafe ch hch) ?_
            right
            exact ⟨s0, S' ++ ':' :: (J ++ ft), rfl, alpha_not_c0 s0 (hhead s0 S' rfl)⟩
          · exact splitScheme_of_scheme (s0 :: S') _ hchars hlow hSne hhead

theorem parse_unparse_insert (c : URLComponents) (hwf : ParsedWf c) (hq : c.query = [])
    (hN : c.netloc = []) (hS : c.scheme ≠ [])
    (hcont : uses_netloc.contains c.scheme = true)
    (hJne : joinParams c.path c.params ≠ [])
    (hJ1 : (joinParams c.path c.params).take 1 ≠ ['/']) :
    ∃ c2 : URLComponents, pyUrlparse (pyUrlunparse c) = .ok c2 ∧ c2.query = [] ∧
      pyUrlunparse c2 = pyUrlunparse c := by
  obtain ⟨S, N, P, A, Q, F⟩ := c
  have hq2 : Q = [] := hq
  subst hq2
  have hN2 : N = [] := hN
  subst hN2
  have hlow : S.map asciiLower = S := hwf.scheme_lower
  have hchars : ∀ ch ∈ S, isSchemeChar ch = true := hwf.scheme_chars
  have hhead : ∀ ch t, S = ch :: t → ch.isAlpha = true := hwf.scheme_head
  have hPq : '?' ∉ P := hwf.path_chars.1
  have hPh : '#' ∉ P := hwf.path_chars.2
  have hAq : '?' ∉ A := hwf.params_chars.1
  have hAh : '#' ∉ A := hwf.params_chars.2.1
  have hAs : '/' ∉ A := hwf.params_chars.2.2
  have hseg : (A ≠ [] ∨ (uses_params.contains S = true ∧ ';' ∈ P)) → ';' ∉ lastSeg P :=
    hwf.seg_clean
  have hcl : ∀ ch, (ch ∈ S ∨ ch ∈ ([] : List Char) ∨ ch ∈ P ∨ ch ∈ A ∨ ch ∈ F) →
      isUnsafeURLByte ch = false := hwf.clean_chars
  have hins := paramsPhase_join_insert S P A hseg hAs
  have hSc : S ≠ [] := hS
  obtain ⟨J, hJdef⟩ : ∃ J, joinParams P A = J := ⟨_, rfl⟩
  rw [hJdef] at hins
  have hJne2 : J ≠ [] := by rw [← hJdef]; exact hJne
  have hJ1b : J.take 1 ≠ ['/'] := by rw [← hJdef]; exact hJ1
  obtain ⟨j0, J0, hJc⟩ : ∃ j0 J0, J = j0 :: J0 := by
    cases J with
    | nil => exact absurd rfl hJne2
    | cons a b => exact ⟨a, b, rfl⟩
  have hj0 : j0 ≠ '/' := by
    intro hx
    apply hJ1b
    rw [hJc, hx]
    rfl
  have htake2 : J.take 2 ≠ ['/', '/'] := by
    rw [hJc]
    intro hx
    have hx2 : j0 :: List.take 1 J0 = ['/', '/'] := hx
    injection hx2 with h1 h2
    exact hj0 h1
  have htake2b : ('/' :: J).take 2 ≠ ['/', '/'] := by
    rw [hJc]
    intro hx
    have hx2 : '/' :: j0 :: List.take 0 J0 = ['/', '/'] := hx
    injection hx2 with h1 h2
    injection h2 with h3 h4
    exact hj0 h3
  have hJq : '?' ∉ J := by
    rw [← hJdef]
    exact not_mem_joinParams P A '?' hPq hAq (by decide)
  have hJh : '#' ∉ J := by
    rw [← hJdef]
    exact not_mem_joinParams P A '#' hPh hAh (by decide)
  have hJq2 : '?' ∉ '/' :: J := by
    intro hx
    rcases List.mem_cons.mp hx with h | h
    · exact absurd h (by decide)
    · exact hJq h
  have hJh2 : '#' ∉ '/' :: J := by
    intro hx
    rcases List.mem_cons.mp hx with h | h
    · exact absurd h (by decide)
    · exact hJh h
  have hsafe : ∀ ch ∈ pyUrlunsplit S [] J [] F, isUnsafeURLByte ch = false := by
    intro ch hch
    rcases pyUrlunsplit_mem S [] J [] F ch hch with h | h | h | h | h | h | h | h | h
    · exact hcl ch (Or.inl h)
    · exact hcl ch (Or.inr (Or.inl h))
    · rw [← hJdef] at h
      rcases joinParams_mem P A ch h with h2 | h2 | h2
      · exact hcl ch (Or.inr (Or.inr (Or.inl h2)))
      · exact hcl ch (Or.inr (Or.inr (Or.inr (Or.inl h2))))
      · rw [h2]; decide
    · exact absurd h (List.not_mem_nil ch)
    · exact hcl ch (Or.inr (Or.inr (Or.inr (Or.inr h))))
    · rw [h]; decide
    · rw [h]; decide
    · rw [h]; decide
    · rw [h]; decide
  obtain ⟨ft, hft⟩ : ∃ ft, (F = [] ∧ ft = []) ∨ (F ≠ [] ∧ ft = '#' :: F) := by
    by_cases hF : F = []
    · exact ⟨[], Or.inl ⟨hF, rfl⟩⟩
    · exact ⟨'#' :: F, Or.inr ⟨hF, rfl⟩⟩
  have hft2 : (F = [] ∧ ft = []) ∨ ft = '#' :: F := by
    rcases hft with ⟨a, b⟩ | ⟨a, b⟩
    · exact Or.inl ⟨a, b⟩
    · exact Or.inr b
  have hfrag : ∀ w : List Char,
      (if (!F.isEmpty) = true then w ++ '#' :: F else w) = w ++ ft := by
    intro w
    rcases hft with ⟨hFe, hfte⟩ | ⟨hFne, hftc⟩
    · rw [hFe, hfte, List.append_nil]
      rfl
    · cases F with
      | nil => exact absurd rfl hFne
      | cons f fs =>
        rw [hftc]
        rfl
  cases S with
  | nil => exact absurd rfl hSc
  | cons s0 S' =>
    have hC1 : ((!(s0 :: S').isEmpty && uses_netloc.contains (s0 :: S')) &&
        decide (J.take 2 ≠ ['/', '/'])) = true := by
      rw [hcont, decide_eq_true htake2]
      rfl
    have hX : (if (!J.isEmpty && decide (J.take 1 ≠ ['/'])) = true then '/' :: J else J)
        = '/' :: J := by
      rw [decide_eq_true hJ1b, hJc]
      rfl
    have hv : pyUrlunsplit (s0 :: S') [] J [] F =
        ((s0 :: S') ++ ':' :: ('/' :: '/' :: ([] ++ '/' :: J))) ++ ft := by
      simp only [pyUrlunsplit]
      rw [hC1, hX, hfrag]
      rfl
    have hv2 : ((s0 :: S') ++ ':' :: ('/' :: '/' :: ([] ++ '/' :: J))) ++ ft =
        (s0 :: S') ++ ':' :: (('/' :: '/' :: ([] ++ '/' :: J)) ++ ft) := by
      simp
    obtain ⟨hsn, hsf, hsq⟩ := pyUrlsplit_tail_ok [] ('/' :: J) F ft
      (('/' :: '/' :: ([] ++ '/' :: J)) ++ ft)
      (fun ch hch => absurd hch (List.not_mem_nil ch)) (by decide) hJh2 hJq2 hft2
      (Or.inl ⟨rfl, Or.inr rfl⟩)
    have hparse : pyUrlparse (pyUrlunsplit (s0 :: S') [] J [] F) =
        .ok ⟨s0 :: S', [], (paramsPhase (s0 :: S') ('/' :: J)).1,
            (paramsPhase (s0 :: S') ('/' :: J)).2, [], F⟩ := by
      rw [hv, hv2]
      refine pyUrlparse_build _ (s0 :: S') (('/' :: '/' :: ([] ++ '/' :: J)) ++ ft) []
        (('/' :: J) ++ ft) ('/' :: J) F _ _ ?_ ?_ hsn hsf hsq rfl
      · refine cleanURL_eq_self _
          (fun ch hch => by rw [← hv2, ← hv] at hch; exact hsafe ch hch) ?_
        right
        exact ⟨s0, S' ++ ':' :: (('/' :: '/' :: ([] ++ '/' :: J)) ++ ft), rfl,
          alpha_not_c0 s0 (hhead s0 S' rfl)⟩
      · exact splitScheme_of_scheme (s0 :: S') _ hchars hlow hSc hhead
    set P2 := (paramsPhase (s0 :: S') ('/' :: J)).1 with hP2
    set A2 := (paramsPhase (s0 :: S') ('/' :: J)).2 with hA2
    have hunp2 : pyUrlunsplit (s0 :: S') [] (joinParams P2 A2) [] F =
        ((s0 :: S') ++ ':' :: ('/' :: '/' :: ([] ++ '/' :: J))) ++ ft := by
      rw [hins]
      have hC1b : ((!(s0 :: S').isEmpty && uses_netloc.contains (s0 :: S')) &&
          decide (('/' :: J).take 2 ≠ ['/', '/'])) = true := by
        rw [hcont, decide_eq_true htake2b]
        rfl
      simp only [pyUrlunsplit]
      rw [hC1b, hfrag]
      rfl
    refine ⟨⟨s0 :: S', [], P2, A2, [], F⟩, ?_, rfl, ?_⟩
    · show pyUrlparse (pyUrlunsplit (s0 :: S') [] (joinParams P A) [] F) =
        Except.ok ⟨s0 :: S', [], P2, A2, [], F⟩
      rw [hJdef]
      exact hparse
    · show pyUrlunsplit (s0 :: S') [] (joinParams P2 A2) [] F =
        pyUrlunsplit (s0 :: S') [] (joinParams P A) [] F
      rw [hJdef, hunp2, hv]

theorem take2_join (P A : List Char) (h : P.take 2 ≠ ['/', '/']) :
    (joinParams P A).take 2 ≠ ['/', '/'] := by
  unfold joinParams
  split
  · exact h
  · cases P with
    | nil =>
      intro hc
      have hc2 : ';' :: List.take 1 A = ['/', '/'] := hc
      injection hc2 with h1 h2
      exact absurd h1 (by decide)
    | cons x xs =>
      cases xs with
      | nil =>
        intro hc
        have hc2 : x :: ';' :: List.take 0 A = ['/', '/'] := hc
        injection hc2 with h1 h2
        injection h2 with h3 h4
        exact absurd h3 (by decide)
      | cons y ys =>
        intro hc
        have hc2 : [x, y] = ['/', '/'] := hc
        exact h hc2

/-- C7 counterexample: on the landing URL with a fragment, remove_query_params
drops the query but keeps the fragment, contradicting the claim that both the
query string and the fragment are removed (utils.py passes parsed.fragment
through to urlunparse unchanged). -/
theorem remove_query_params_keeps_fragment :
    remove_query_params "https://m.bilibili.com/video/BV1xK4y1p7?from=share#t=10" =
      .ok "https://m.bilibili.com/video/BV1xK4y1p7#t=10" := by decide

/-- C7 (amended): remove_query_params removes exactly the query component:
whenever the input parses to components c for which unparse-then-parse is an
exact round trip, the output parses to the same components with the query
cleared and the scheme, netloc, path, params and fragment unchanged; in
particular the short-link landing URL
https://m.bilibili.com/video/BV1xK4y1p7?from=share normalizes to
https://m.bilibili.com/video/BV1xK4y1p7, from which extract_bvid reads the
identifier BV1xK4y1p7. -/
theorem remove_query_params_query_only :
    (∀ (u : String) (c : URLComponents), pyUrlparse u.toList = .ok c →
      exactRoundTripCond { c with query := [] } →
      ∃ v : String, remove_query_params u = .ok v ∧
        pyUrlparse v.toList = .ok { c with query := [] }) ∧
    remove_query_params "https://m.bilibili.com/video/BV1xK4y1p7?from=share" =
      .ok "https://m.bilibili.com/video/BV1xK4y1p7" ∧
    extract_bvid "https://m.bilibili.com/video/BV1xK4y1p7" = some "BV1xK4y1p7" := by
  refine ⟨?_, by decide, by decide⟩
  intro u c hp hcond
  have hwf := pyUrlparse_wf u.toList c hp
  refine ⟨String.mk (pyUrlunparse { c with query := [] }), ?_, ?_⟩
  · unfold remove_query_params rqpList
    simp only [hp]
    rfl
  · show pyUrlparse (pyUrlunparse { c with query := [] }) = .ok { c with query := [] }
    exact parse_unparse_exact { c with query := [] } hwf rfl hcond

/-- Witness for C7: the amended theorem applied to the concrete landing URL of
end-to-end scenario 3. -/
theorem remove_query_params_query_only_witness :
    ∃ v : String,
      remove_query_params "https://m.bilibili.com/video/BV1xK4y1p7?from=share" = .ok v ∧
      pyUrlparse v.toList = .ok ⟨"https".toList, "m.bilibili.com".toList,
        "/video/BV1xK4y1p7".toList, [], [], []⟩ :=
  remove_query_params_query_only.1 "https://m.bilibili.com/video/BV1xK4y1p7?from=share"
    ⟨"https".toList, "m.bilibili.com".toList, "/video/BV1xK4y1p7".toList, [],
      "from=share".toList, []⟩ (by decide) (by unfold exactRoundTripCond; decide)

/-- C10 counterexample: remove_query_params is not idempotent.  On the input
/////y a first application yields ///y (the parser reads an empty netloc and
path ///y, and unparsing does not restore the extra slashes), and a second
application yields /y. -/
theorem remove_query_params_not_idempotent :
    remove_query_params "/////y" = .ok "///y" ∧
    remove_query_params "///y" = .ok "/y" := by decide

/-- C10 (amended): remove_query_params is idempotent on every URL whose parse
has a non-empty netloc or whose parsed path does not begin with two slashes;
applying it a second time returns the first result unchanged.  (The excluded
inputs are those where an empty netloc sits before a path starting with //,
which re-parsing absorbs into the netloc.) -/
theorem remove_query_params_idempotent_amended (u : String) (c : URLComponents)
    (hp : pyUrlparse u.toList = .ok c)
    (hcond : c.netloc ≠ [] ∨ c.path.take 2 ≠ ['/', '/']) :
    (remove_query_params u).bind remove_query_params = remove_query_params u := by
  have hwf := pyUrlparse_wf u.toList c hp
  have hrq : remove_query_params u = .ok (String.mk (pyUrlunparse { c with query := [] })) := by
    unfold remove_query_params rqpList
    simp only [hp]
    rfl
  rw [hrq]
  show remove_query_params (String.mk (pyUrlunparse { c with query := [] })) =
    .ok (String.mk (pyUrlunparse { c with query := [] }))
  by_cases hex : exactRoundTripCond { c with query := [] }
  · have hparse : pyUrlparse (pyUrlunparse { c with query := [] }) =
        .ok { c with query := [] } :=
      parse_unparse_exact { c with query := [] } hwf rfl hex
    show (rqpList (pyUrlunparse { c with query := [] })).map String.mk =
      Except.ok (String.mk (pyUrlunparse { c with query := [] }))
    unfold rqpList
    simp only [hparse]
    rfl
  · have hN : ({ c with query := [] } : URLComponents).netloc = [] := by
      by_cases h : ({ c with query := [] } : URLComponents).netloc = []
      · exact h
      · exact absurd (Or.inl h) hex
    have hP2 : ({ c with query := [] } : URLComponents).path.take 2 ≠ ['/', '/'] := by
      rcases hcond with h | h
      · exact absurd hN h
      · exact h
    have hJ2 : (joinParams ({ c with query := [] } : URLComponents).path
        ({ c with query := [] } : URLComponents).params).take 2 ≠ ['/', '/'] :=
      take2_join _ _ hP2
    have hinsc : ({ c with query := [] } : URLComponents).scheme ≠ [] ∧
        uses_netloc.contains ({ c with query := [] } : URLComponents).scheme = true ∧
        joinParams ({ c with query := [] } : URLComponents).path
          ({ c with query := [] } : URLComponents).params ≠ [] ∧
        (joinParams ({ c with query := [] } : URLComponents).path
          ({ c with query := [] } : URLComponents).params).take 1 ≠ ['/'] := by
      by_contra hni
      exact hex (Or.inr ⟨hJ2, hni⟩)
    obtain ⟨hS, hcont, hJne, hJ1⟩ := hinsc
    obtain ⟨c2, hparse2, hq2, hunp2⟩ :=
      parse_unparse_insert { c with query := [] } hwf rfl hN hS hcont hJne hJ1
    show (rqpList (pyUrlunparse { c with query := [] })).map String.mk =
      Except.ok (String.mk (pyUrlunparse { c with query := [] }))
    unfold rqpList
    simp only [hparse2, clear_query_eq c2 hq2, hunp2]
    rfl

/-- Witness for C10: the amended idempotence theorem applied to http:foo, an
input that exercises the slash-insertion branch of urlunparse (its first
normalization is http:///foo, which is a fixed point). -/
theorem remove_query_params_idempotent_amended_witness :
    (remove_query_params "http:foo").bind remove_query_params =
      remove_query_params "http:foo" :=
  remove_query_params_idempotent_amended "http:foo"
    ⟨"http".toList, [], "foo".toList, [], [], []⟩ (by decide) (by decide)
